import Mathlib

/-!
Shallow embedding of the portfolio_tracker analytics core
(src/etl/create_transaction_matches.py, src/etl/allocate_dividends.py,
src/etl/realized_gain_calculator.py, src/etl/portfolio_xirr.py).

Modelling conventions:
- SQLite REAL columns are modelled as exact rationals; the source's
  FLOAT_TOLERANCE = 1e-9 comparisons are kept verbatim.
- Dates are modelled as proleptic day ordinals (Nat); the ordinal of
  Python date.min is 1, so "previous_dividend_date or date.min" becomes
  Option.getD with dateMin = 1.
- Rows of transaction_t are Transaction records; the NULL-ability of the
  SQLite columns is modelled with Option.
- Real-valued code (CAGR, XIRR) is modelled over the real numbers with
  real exponentiation for the float power operator.
-/

namespace Portfolio

/-- FLOAT_TOLERANCE = 1e-9 from the source modules. -/
def FLOAT_TOLERANCE : ℚ := 1 / 1000000000

/-- One row of transaction_t (the columns read by the analytics modules). -/
structure Transaction where
  id : Nat
  broker_id : Nat
  security_id : Nat
  transaction_date : Option Nat
  transaction_type : String
  shares : Option ℚ
  price_per_share : Option ℚ
  total_value : Option ℚ
  fees : Option ℚ
  net_amount : Option ℚ
  deriving DecidableEq

/-- The _abs_float helper: None maps to 0, otherwise absolute value. -/
def absFloat : Option ℚ → ℚ
  | none => 0
  | some v => |v|

/-- The _coalesce_amount helper of portfolio_xirr.py: best available monetary
value of a row.  With prefer_net the net_amount is used first; otherwise
total_value, then price_per_share times shares (when shares is truthy),
then 0. -/
def coalesce_amount (row : Transaction) (prefer_net : Bool) : ℚ :=
  if prefer_net ∧ row.net_amount.isSome then row.net_amount.getD 0
  else if row.total_value.isSome then row.total_value.getD 0
  else
    match row.price_per_share, row.shares with
    | some p, some s => if s ≠ 0 then p * s else 0
    | _, _ => 0

/-- One row of transaction_match_t. -/
structure MatchRow where
  broker_id : Nat
  security_id : Nat
  buy_transaction_id : Nat
  sell_transaction_id : Nat
  shares : ℚ
  allocated_cost : ℚ
  allocated_proceeds : ℚ
  allocated_fees : ℚ
  deriving DecidableEq

/-- SELECT COALESCE(SUM(shares),0) FROM transaction_match_t WHERE
buy_transaction_id = txId (the _load_existing_allocations query, buy side;
a missing group is read back as 0 through dict.get(id, 0.0)). -/
def buyAllocated (table : List MatchRow) (txId : Nat) : ℚ :=
  ((table.filter fun m => m.buy_transaction_id == txId).map MatchRow.shares).sum

/-- Sum of already matched shares per sell transaction (sell side of
_load_existing_allocations). -/
def sellAllocated (table : List MatchRow) (txId : Nat) : ℚ :=
  ((table.filter fun m => m.sell_transaction_id == txId).map MatchRow.shares).sum

/-- The BuyLot dataclass of create_transaction_matches.py. -/
structure BuyLot where
  tx_id : Nat
  buy_date : Nat
  shares_remaining : ℚ
  cost_per_share : ℚ
  deriving DecidableEq

/-- Building the FIFO queue of buy lots for one group (lines 138-158 of
create_transaction_matches.py): rows without a date or with non-positive
shares are skipped, each lot's remaining shares are reduced by the shares
already allocated in the match table, and exhausted lots (remainder at most
FLOAT_TOLERANCE) are dropped. -/
def buildLot (table : List MatchRow) (buy_row : Transaction) : Option BuyLot :=
  match buy_row.transaction_date with
  | none => none
  | some buy_dt =>
    let shares := absFloat buy_row.shares
    if shares ≤ 0 then none
    else
      let cost_per_share := |coalesce_amount buy_row true| / shares
      let shares_remaining := shares - buyAllocated table buy_row.id
      if shares_remaining ≤ FLOAT_TOLERANCE then none
      else some { tx_id := buy_row.id, buy_date := buy_dt,
                  shares_remaining := shares_remaining,
                  cost_per_share := cost_per_share }

def buildLots (table : List MatchRow) (buys : List Transaction) : List BuyLot :=
  buys.filterMap (buildLot table)

/-- Per-sell constants computed before the matching loop. -/
structure SellCtx where
  broker_id : Nat
  security_id : Nat
  sell_tx_id : Nat
  proceeds_per_share : ℚ
  fee_per_share : ℚ

/-- The inner while loop of create_transaction_matches.py (lines 177-209):
pull from the front of the buy-lot queue while shares remain to match.
Returns (emitted match rows, remaining sell shares, remaining lot queue).
In the branch where the head lot is not exhausted, the matched quantity
necessarily equals the whole remaining sell quantity (min of the two), so
the remaining count after the decrement is 0 and the source loop exits at
its next condition check; the recursion therefore stops there as well. -/
def sell_loop (ctx : SellCtx) : ℚ → List BuyLot → List MatchRow × ℚ × List BuyLot
  | shares_to_match, [] => ([], shares_to_match, [])
  | shares_to_match, lot :: rest =>
    if shares_to_match ≤ FLOAT_TOLERANCE then ([], shares_to_match, lot :: rest)
    else
      let matched_shares := min shares_to_match lot.shares_remaining
      let m : MatchRow :=
        { broker_id := ctx.broker_id
          security_id := ctx.security_id
          buy_transaction_id := lot.tx_id
          sell_transaction_id := ctx.sell_tx_id
          shares := matched_shares
          allocated_cost := lot.cost_per_share * matched_shares
          allocated_proceeds := ctx.proceeds_per_share * matched_shares
          allocated_fees := ctx.fee_per_share * matched_shares }
      let lot_rem := lot.shares_remaining - matched_shares
      let stm := shares_to_match - matched_shares
      if lot_rem ≤ FLOAT_TOLERANCE then
        let r := sell_loop ctx stm rest
        (m :: r.1, r.2.1, r.2.2)
      else
        ([m], stm, { lot with shares_remaining := lot_rem } :: rest)

/-- Mutable state of the per-group sells loop: the shared lot queue, the
accumulated inserted match rows and the unmatched sell share counter. -/
structure GroupState where
  lots : List BuyLot
  inserted : List MatchRow
  unmatched : ℚ

/-- Processing one sell row (lines 160-212 of create_transaction_matches.py);
`table` is the content of transaction_match_t at the time the group's
existing allocations were loaded. -/
def processSell (bk sec : Nat) (table : List MatchRow)
    (st : GroupState) (sell_row : Transaction) : GroupState :=
  match sell_row.transaction_date with
  | none => st
  | some _ =>
    let sell_shares_total := absFloat sell_row.shares
    if sell_shares_total ≤ 0 then st
    else
      let already_matched := sellAllocated table sell_row.id
      let shares_to_match := sell_shares_total - already_matched
      if shares_to_match ≤ FLOAT_TOLERANCE then st
      else
        let proceeds_total := |coalesce_amount sell_row true|
        let ctx : SellCtx :=
          { broker_id := bk
            security_id := sec
            sell_tx_id := sell_row.id
            proceeds_per_share := proceeds_total / sell_shares_total
            fee_per_share := absFloat sell_row.fees / sell_shares_total }
        let r := sell_loop ctx shares_to_match st.lots
        { lots := r.2.2
          inserted := st.inserted ++ r.1
          unmatched := st.unmatched +
            (if FLOAT_TOLERANCE < r.2.1 then r.2.1 else 0) }

/-- Sort key (transaction_date, id) used inside each group; dates are
non-null for the selected rows, the 0 default is never reached. -/
def txKey (t : Transaction) : Nat × Nat := (t.transaction_date.getD 0, t.id)

/-- Strict lexicographic order on the (date, id) sort key. -/
def keyLt (a b : Nat × Nat) : Prop := a.1 < b.1 ∨ (a.1 = b.1 ∧ a.2 < b.2)

instance (a b : Nat × Nat) : Decidable (keyLt a b) := by
  unfold keyLt; infer_instance

/-- Stable insertion of a transaction into a (date, id)-sorted list:
the new element goes before the first element that is not strictly
smaller, matching the stability of Python sorted. -/
def insertByKey (t : Transaction) : List Transaction → List Transaction
  | [] => [t]
  | u :: us =>
    if keyLt (txKey u) (txKey t) then u :: insertByKey t us
    else t :: u :: us

/-- Stable sort by (transaction_date, id), the Python
sorted(rows, key=(date, id)) of lines 130-131. -/
def sortByDateId (l : List Transaction) : List Transaction :=
  l.foldr insertByKey []

/-- FIFO matching of one (broker_id, security_id) group (lines 129-212 of
create_transaction_matches.py).  `table` is the state of
transaction_match_t when the group's existing allocations are loaded.
Returns the created match rows and the group's unmatched sell shares. -/
def matchGroup (bk sec : Nat) (table : List MatchRow)
    (buysRaw sellsRaw : List Transaction) : List MatchRow × ℚ :=
  let buys := sortByDateId buysRaw
  let sells := sortByDateId sellsRaw
  let st := sells.foldl (processSell bk sec table)
    { lots := buildLots table buys, inserted := [], unmatched := 0 }
  (st.inserted, st.unmatched)

/-- Group keys in first-appearance order (the defaultdict key order of
lines 119-124; the SQL ordering only affects the iteration order of the
groups, not the rows each group contains). -/
def keysInOrder (rows : List Transaction) : List (Nat × Nat) :=
  rows.foldl
    (fun acc r =>
      if (r.broker_id, r.security_id) ∈ acc then acc
      else acc ++ [(r.broker_id, r.security_id)]) []

/-- The row selection of create_transaction_matches (lines 100-113): buy and
sell rows with a non-null transaction date. -/
def ctmRows (transactions : List Transaction) : List Transaction :=
  transactions.filter fun t =>
    (t.transaction_type == "buy" || t.transaction_type == "sell")
      && t.transaction_date.isSome

/-- The rows of one (broker_id, security_id) group. -/
def groupRows (rows : List Transaction) (key : Nat × Nat) : List Transaction :=
  rows.filter fun r => (r.broker_id, r.security_id) == key

/-- The buy rows of one group. -/
def groupBuys (rows : List Transaction) (key : Nat × Nat) : List Transaction :=
  (groupRows rows key).filter fun r => r.transaction_type == "buy"

/-- The sell rows of one group. -/
def groupSells (rows : List Transaction) (key : Nat × Nat) : List Transaction :=
  (groupRows rows key).filter fun r => r.transaction_type == "sell"

/-- One iteration of the group loop: run FIFO matching for the key against
the live match table (table0 plus the rows inserted by the already
processed groups of this run) and accumulate the inserted rows and the
unmatched sell shares. -/
def ctmStep (table0 : List MatchRow) (rows : List Transaction)
    (acc : List MatchRow × ℚ) (key : Nat × Nat) : List MatchRow × ℚ :=
  let res := matchGroup key.1 key.2 (table0 ++ acc.1)
    (groupBuys rows key) (groupSells rows key)
  (acc.1 ++ res.1, acc.2 + res.2)

/-- create_transaction_matches (default incremental mode when
clear_existing is false): selects buy/sell rows with a non-null date,
groups them by (broker_id, security_id) and runs FIFO matching per group
against the live match table.  Returns the newly inserted match rows
(their count is the matches_created statistic) and the total unmatched
sell shares. -/
def create_transaction_matches (transactions : List Transaction)
    (existing : List MatchRow) (clear_existing : Bool) : List MatchRow × ℚ :=
  let table0 := if clear_existing then [] else existing
  let rows := ctmRows transactions
  (keysInOrder rows).foldl (ctmStep table0 rows) ([], 0)


/-! ### Helper notions used by the matcher lemmas -/

/-- Transaction ids of a lot queue, in queue order. -/
def lotIds (lots : List BuyLot) : List Nat := lots.map BuyLot.tx_id

/-- Remaining shares recorded in a lot queue for one buy transaction id. -/
def lotRemOf (lots : List BuyLot) (b : Nat) : ℚ :=
  ((lots.filter fun l => l.tx_id == b).map BuyLot.shares_remaining).sum

/-- Total shares of a list of match rows. -/
def matchShares (ms : List MatchRow) : ℚ := (ms.map MatchRow.shares).sum

/-- Invariant of the lot queue: distinct transaction ids and every lot
strictly above the drop tolerance. -/
def goodLots (lots : List BuyLot) : Prop :=
  (lots.map BuyLot.tx_id).Nodup ∧ ∀ l ∈ lots, FLOAT_TOLERANCE < l.shares_remaining

/-! ### Dividend allocator (allocate_dividends.py) -/

/-- Ordinal of Python date.min (0001-01-01); `previous_dividend_date or
date.min` becomes an Option.getD with this value. -/
def dateMin : Nat := 1

/-- The HoldingSegment dataclass of allocate_dividends.py. -/
structure HoldingSegment where
  buy_transaction_id : Nat
  broker_id : Nat
  security_id : Nat
  buy_date : Nat
  sell_date : Option Nat
  shares : ℚ
  deriving DecidableEq

/-- The _eligible_segments filter (lines 151-166 of allocate_dividends.py):
keep a segment when its buy date strictly precedes the dividend date and
its sell date is none, or at least the dividend date, or strictly after
the previous-dividend cutoff. -/
def eligible_segments (segs : List HoldingSegment) (dividend_date : Nat)
    (previous_dividend_date : Option Nat) : List HoldingSegment :=
  let prev_cutoff := previous_dividend_date.getD dateMin
  segs.filter fun seg =>
    decide (seg.buy_date < dividend_date) &&
      (match seg.sell_date with
       | none => true
       | some sd => decide (dividend_date ≤ sd) || decide (prev_cutoff < sd))

/-- One allocation bucket of _allocate_for_dividend: the per-buy-transaction
entry of the allocations dict, kept in allocation_order. -/
structure AllocBucket where
  buy_id : Nat
  shares : ℚ
  amount : ℚ
  deriving DecidableEq

/-- Adding shares/amount for one segment to the allocations dict: merge into
the existing bucket of the same buy transaction, else append a new bucket
(the dict preserves insertion order). -/
def addToBucket (buckets : List AllocBucket) (buy_id : Nat)
    (sh amt : ℚ) : List AllocBucket :=
  if buckets.any fun b => b.buy_id == buy_id then
    buckets.map fun b =>
      if b.buy_id == buy_id then
        { b with shares := b.shares + sh, amount := b.amount + amt }
      else b
  else buckets ++ [{ buy_id := buy_id, shares := sh, amount := amt }]

/-- Loop state of the segment walk of _allocate_for_dividend. -/
structure WalkState where
  shares_left : ℚ
  distributed : ℚ
  buckets : List AllocBucket

/-- The segment walk of _allocate_for_dividend (lines 213-231): break once a
declared share count is present and the remaining pool is exhausted, use
min(segment shares, shares left) when a declared count is present and the
full segment otherwise, skip quantities at most the tolerance, accumulate
one bucket per buy transaction. -/
def alloc_walk (declared_shares per_share_amount : ℚ) :
    WalkState → List HoldingSegment → WalkState
  | st, [] => st
  | st, seg :: rest =>
    if FLOAT_TOLERANCE < declared_shares ∧ st.shares_left ≤ FLOAT_TOLERANCE then
      st
    else
      let shares_to_use :=
        if FLOAT_TOLERANCE < declared_shares then min seg.shares st.shares_left
        else seg.shares
      if shares_to_use ≤ FLOAT_TOLERANCE then
        alloc_walk declared_shares per_share_amount st rest
      else
        alloc_walk declared_shares per_share_amount
          { shares_left := st.shares_left - shares_to_use
            distributed := st.distributed + shares_to_use * per_share_amount
            buckets := addToBucket st.buckets seg.buy_transaction_id
              shares_to_use (shares_to_use * per_share_amount) } rest

/-- Appending the rounding remainder to the last allocation bucket
(allocations[allocation_order[-1]], lines 237-242). -/
def add_remainder_to_last (remainder : ℚ) : List AllocBucket → List AllocBucket
  | [] => []
  | [b] => [{ b with amount := b.amount + remainder }]
  | b :: bs => b :: add_remainder_to_last remainder bs

/-- Total distributable shares (lines 200-202): the declared share count when
strictly above the tolerance, else the sum of the eligible segments. -/
def dividend_total_shares (d : Transaction)
    (eligible : List HoldingSegment) : ℚ :=
  let declared_shares := absFloat d.shares
  if FLOAT_TOLERANCE < declared_shares then declared_shares
  else (eligible.map HoldingSegment.shares).sum

/-- The walk of _allocate_for_dividend starting from the full distributable
pool (exposed so theorems can speak about the final walk state). -/
def alloc_walk_result (d : Transaction) (segs : List HoldingSegment)
    (dividend_date : Nat) (previous_dividend_date : Option Nat) : WalkState :=
  let amount := coalesce_amount d false
  let eligible := eligible_segments segs dividend_date previous_dividend_date
  let total_shares := dividend_total_shares d eligible
  alloc_walk (absFloat d.shares) (amount / total_shares)
    { shares_left := total_shares, distributed := 0, buckets := [] } eligible

/-- The _allocate_for_dividend function (lines 177-270 of
allocate_dividends.py) as a pure function: none models the error outcome
(error_message recorded, allocated = 0); some gives the
dividend_allocation_t rows written for this dividend, one per bucket in
allocation order. -/
def allocate_for_dividend (d : Transaction) (segs : List HoldingSegment)
    (dividend_date : Nat) (previous_dividend_date : Option Nat) :
    Option (List AllocBucket) :=
  let amount := coalesce_amount d false
  if |amount| ≤ FLOAT_TOLERANCE then none
  else
    let eligible := eligible_segments segs dividend_date previous_dividend_date
    if eligible.isEmpty then none
    else
      let total_shares := dividend_total_shares d eligible
      if total_shares ≤ FLOAT_TOLERANCE then none
      else
        let st := alloc_walk_result d segs dividend_date previous_dividend_date
        if st.buckets.isEmpty then none
        else if FLOAT_TOLERANCE < st.shares_left ∧ st.distributed < amount then
          some (add_remainder_to_last (amount - st.distributed) st.buckets)
        else some st.buckets

/-- Sum of the allocated amounts of a bucket list. -/
def bucketAmountSum (bs : List AllocBucket) : ℚ :=
  (bs.map AllocBucket.amount).sum

/-- Adding the remainder to the last entry of a rational list (the
aggregator adds its remainder to eligible_positions[-1]). -/
def add_last_rat (remainder : ℚ) : List ℚ → List ℚ
  | [] => []
  | [a] => [a + remainder]
  | a :: as2 => a :: add_last_rat remainder as2

/-! ### Realized gain aggregator (realized_gain_calculator.py) -/

/-- An aggregated realized-gain position as used for dividend matching in
calculate_realized_gains: its buy/sell dates and summed share count. -/
structure AggPosition where
  buy_date : Nat
  sell_date : Nat
  shares : ℚ
  deriving DecidableEq

/-- Eligibility filter of the aggregator (line 210-214 of
realized_gain_calculator.py): positions with buy_date <= dividend date <=
sell_date. -/
def agg_eligible (positions : List AggPosition) (div_date : Nat) :
    List AggPosition :=
  positions.filter fun p =>
    decide (p.buy_date ≤ div_date) && decide (div_date ≤ p.sell_date)

/-- The aggregator dividend walk (lines 226-239): per eligible position in
order, break when no shares are left, skip non-positive positions, assign
min(position shares, shares left).  Returns the allocation per eligible
position (zero after a break or skip), the final shares_left and the
distributed amount. -/
def agg_walk (per_share_amount : ℚ) : ℚ → List ℚ → List ℚ × ℚ × ℚ
  | shares_left, [] => ([], shares_left, 0)
  | shares_left, sh :: rest =>
    if shares_left ≤ 0 then (0 :: rest.map fun _ => 0, shares_left, 0)
    else if sh ≤ 0 then
      let r := agg_walk per_share_amount shares_left rest
      (0 :: r.1, r.2.1, r.2.2)
    else
      let assign := min sh shares_left
      let r := agg_walk per_share_amount (shares_left - assign) rest
      (assign * per_share_amount :: r.1, r.2.1, r.2.2 + assign * per_share_amount)

/-- Dividend split of the aggregator for one dividend (lines 205-245 of
realized_gain_calculator.py): none when the dividend is skipped (zero
amount, no eligible position, or no positive share total); otherwise the
amount added to each eligible position's total_dividend, with the
remainder added to the last eligible position. -/
def agg_dividend_split (amount declared_shares : ℚ)
    (positions : List AggPosition) (div_date : Nat) : Option (List ℚ) :=
  if amount = 0 then none
  else
    let eligible := agg_eligible positions div_date
    if eligible.isEmpty then none
    else
      let eligible_share_sum := (eligible.map AggPosition.shares).sum
      let total_shares :=
        if 0 < declared_shares then declared_shares else eligible_share_sum
      if total_shares ≤ 0 then none
      else
        let r := agg_walk (amount / total_shares) total_shares
          (eligible.map AggPosition.shares)
        if 0 < r.2.1 ∧ r.2.2 < amount then
          some (add_last_rat (amount - r.2.2) r.1)
        else some r.1

/-- The dividend amount used by the aggregator when it builds its dividend
records (line 192 of realized_gain_calculator.py). -/
def agg_dividend_amount (row : Transaction) : ℚ := coalesce_amount row false

/-! ### CAGR (realized_gain_calculator.py lines 45-51) -/

/-- The _calculate_cagr function; the float power operator is modelled by
real exponentiation. -/
noncomputable def calculate_cagr
    (initial_value final_value years : ℝ) : ℝ :=
  if initial_value ≤ 0 ∨ years ≤ 0 then 0
  else if final_value ≤ 0 then
    -100 * (1 - (|final_value| / initial_value) ^ (1 / years))
  else ((final_value / initial_value) ^ (1 / years) - 1) * 100

/-! ### XIRR engine (portfolio_xirr.py) -/

/-- Elapsed years since the first cash flow's date (lines 122-126); dates
are day numbers, so the difference is the Python day count. -/
noncomputable def xirr_timed_flows (cashflows : List (ℤ × ℝ)) :
    List (ℝ × ℝ) :=
  match cashflows with
  | [] => []
  | (d0, _) :: _ =>
    cashflows.map fun c => (((c.1 - d0 : ℤ) : ℝ) / 365.25, c.2)

/-- NPV(rate) = sum of amount / (1+rate)^years (lines 128-135).  The source
returns a signed infinity when the factor 1+rate is non-positive; in this
real-valued model that case is mapped to a junk value 0 and the source's
isfinite tests are modelled as positivity tests on the factor, which is
exactly when the source value is finite. -/
noncomputable def npv_at (tf : List (ℝ × ℝ)) (rate : ℝ) : ℝ :=
  if 0 < 1 + rate then (tf.map fun ya => ya.2 / (1 + rate) ^ ya.1).sum
  else 0

/-- The geometric doubling of the upper bracket bound (lines 142-146):
while the two NPVs have the same sign, at most 60 attempts and the bound
below 1e6, double the bound and recompute its NPV. -/
noncomputable def doubling_loop (tf : List (ℝ × ℝ)) (npv_low : ℝ) :
    ℝ → ℝ → Nat → ℝ × ℝ
  | high, npv_high, 0 => (high, npv_high)
  | high, npv_high, fuel + 1 =>
    if 0 < npv_low * npv_high ∧ high < 1000000 then
      doubling_loop tf npv_low (high * 2) (npv_at tf (high * 2)) fuel
    else (high, npv_high)

/-- The fixed scan table of candidate rates (BRACKET_SCAN_POINTS). -/
noncomputable def BRACKET_SCAN_POINTS : List ℝ :=
  [-0.9999, -0.99, -0.95, -0.9, -0.8, -0.7, -0.6, -0.5, -0.4, -0.3, -0.2,
   -0.1, -0.05, -0.02, -0.01, 0.0, 0.01, 0.02, 0.05, 0.1, 0.2, 0.5, 1.0,
   2.0, 5.0, 10.0, 20.0, 50.0, 100.0, 200.0, 500.0, 1000.0, 2000.0,
   5000.0, 10000.0, 100000.0, 1000000.0]

/-- The fallback scan (lines 151-169): walk the table with the previous
finite point in hand; skip rates whose NPV is not finite, return a rate
with near-zero NPV directly (Sum.inl), re-bracket on the first sign flip
(Sum.inr of low, npv low, high, npv high), and give none when the table is
exhausted without a bracket (the for-else branch). -/
noncomputable def scan_loop (tf : List (ℝ × ℝ)) :
    Option (ℝ × ℝ) → List ℝ → Option (ℝ ⊕ ℝ × ℝ × ℝ × ℝ)
  | _, [] => none
  | prev, rate :: rest =>
    if 0 < 1 + rate then
      let val := npv_at tf rate
      if |val| < 1e-7 then some (Sum.inl rate)
      else
        match prev with
        | some pv =>
          if pv.2 * val < 0 then some (Sum.inr (pv.1, pv.2, rate, val))
          else scan_loop tf (some (rate, val)) rest
        | none => scan_loop tf (some (rate, val)) rest
    else scan_loop tf prev rest

/-- The bisection loop (lines 171-185): 200 iterations, return none on a
non-finite NPV, return the midpoint once its NPV is within 1e-7 of zero,
keep the half interval with the sign change, and return the final midpoint
when the iterations are exhausted. -/
noncomputable def bisect_loop (tf : List (ℝ × ℝ)) :
    Nat → ℝ → ℝ → ℝ → ℝ → Option ℝ
  | 0, low, high, _, _ => some ((low + high) / 2)
  | fuel + 1, low, high, npv_low, npv_high =>
    let mid := (low + high) / 2
    if 0 < 1 + mid then
      let npv_mid := npv_at tf mid
      if |npv_mid| < 1e-7 then some mid
      else if npv_low * npv_mid < 0 then
        bisect_loop tf fuel low mid npv_low npv_mid
      else bisect_loop tf fuel mid high npv_mid npv_high
    else none

/-- The _xirr_from_cashflows function (lines 113-185 of portfolio_xirr.py):
none for fewer than two flows or without both a strictly positive and a
strictly negative amount; otherwise bracket by doubling, fall back to the
scan table, and bisect. -/
noncomputable def xirr_from_cashflows (cashflows : List (ℤ × ℝ)) :
    Option ℝ :=
  if cashflows.length < 2 then none
  else if ¬ ∃ c ∈ cashflows, 0 < c.2 then none
  else if ¬ ∃ c ∈ cashflows, c.2 < 0 then none
  else
    let tf := xirr_timed_flows cashflows
    let low : ℝ := -0.9999
    let npv_low := npv_at tf low
    let dh := doubling_loop tf npv_low 0.1 (npv_at tf 0.1) 60
    if 0 < 1 + low ∧ 0 < 1 + dh.1 then
      if 0 < npv_low * dh.2 then
        match scan_loop tf none BRACKET_SCAN_POINTS with
        | none => none
        | some (Sum.inl rate) => some rate
        | some (Sum.inr brk) => bisect_loop tf 200 brk.1 brk.2.2.1 brk.2.1 brk.2.2.2
      else bisect_loop tf 200 low dh.1 npv_low dh.2
    else none


/-- The skip conditions of the sells loop for one sell row: missing date,
non-positive share count, or nothing left to match beyond the tolerance. -/
def skipCond (table : List MatchRow) (s : Transaction) : Prop :=
  s.transaction_date = none ∨ absFloat s.shares ≤ 0 ∨
    absFloat s.shares - sellAllocated table s.id ≤ FLOAT_TOLERANCE

/-- The per-sell constants of processSell, named for the lemmas. -/
def sellCtxOf (bk sec : Nat) (table : List MatchRow) (s : Transaction) : SellCtx :=
  { broker_id := bk
    security_id := sec
    sell_tx_id := s.id
    proceeds_per_share := |coalesce_amount s true| / absFloat s.shares
    fee_per_share := absFloat s.fees / absFloat s.shares }

/-- Shares still to match for one sell row: its share count reduced by the
already matched total. -/
def sellStm0 (table : List MatchRow) (s : Transaction) : ℚ :=
  absFloat s.shares - sellAllocated table s.id

/-! ### Concrete rows used by the claim-level theorems -/

/-- Buy of 100 shares at date A = 10 (the spec's FIFO example). -/
def buyA : Transaction :=
  { id := 1, broker_id := 1, security_id := 1, transaction_date := some 10
    transaction_type := "buy", shares := some 100, price_per_share := none
    total_value := some (-1000), fees := none, net_amount := some (-1000) }

/-- Buy of 50 shares at date B = 20. -/
def buyB : Transaction :=
  { id := 2, broker_id := 1, security_id := 1, transaction_date := some 20
    transaction_type := "buy", shares := some 50, price_per_share := none
    total_value := some (-550), fees := none, net_amount := some (-550) }

/-- Sell of 120 shares at date 30. -/
def sellC : Transaction :=
  { id := 3, broker_id := 1, security_id := 1, transaction_date := some 30
    transaction_type := "sell", shares := some 120, price_per_share := none
    total_value := some 1440, fees := none, net_amount := some 1440 }

/-- Expected first match row: 100 shares drawn from buyA. -/
def mAC : MatchRow :=
  { broker_id := 1, security_id := 1, buy_transaction_id := 1
    sell_transaction_id := 3, shares := 100, allocated_cost := 1000
    allocated_proceeds := 1200, allocated_fees := 0 }

/-- Expected second match row: 20 shares drawn from buyB. -/
def mBC : MatchRow :=
  { broker_id := 1, security_id := 1, buy_transaction_id := 2
    sell_transaction_id := 3, shares := 20, allocated_cost := 220
    allocated_proceeds := 240, allocated_fees := 0 }

/-- A dividend row declaring 200 shares with a recorded amount of -50. -/
def d4 : Transaction :=
  { id := 7, broker_id := 1, security_id := 1, transaction_date := some 10
    transaction_type := "dividend", shares := some 200, price_per_share := none
    total_value := some (-50), fees := none, net_amount := none }

/-- A single open holding segment of 100 shares bought at date 5. -/
def seg4 : HoldingSegment :=
  { buy_transaction_id := 71, broker_id := 1, security_id := 1
    buy_date := 5, sell_date := none, shares := 100 }

/-- The allocation the allocator writes for d4. -/
def c4buckets : List AllocBucket :=
  [{ buy_id := 71, shares := 100, amount := -25 }]

/-- A dividend row at date 100 with amount 100 and no declared shares. -/
def d5 : Transaction :=
  { id := 8, broker_id := 1, security_id := 1, transaction_date := some 100
    transaction_type := "dividend", shares := none, price_per_share := none
    total_value := some 100, fees := none, net_amount := none }

/-- A segment sold at date 50, strictly before the dividend date 100. -/
def seg5 : HoldingSegment :=
  { buy_transaction_id := 9, broker_id := 1, security_id := 1
    buy_date := 10, sell_date := some 50, shares := 100 }

/-- The allocation the allocator writes for d5. -/
def c5buckets : List AllocBucket :=
  [{ buy_id := 9, shares := 100, amount := 100 }]

/-- A dividend row dated exactly on a position's buy date. -/
def d6 : Transaction :=
  { id := 11, broker_id := 1, security_id := 1, transaction_date := some 10
    transaction_type := "dividend", shares := none, price_per_share := none
    total_value := some 100, fees := none, net_amount := none }

/-- The same position as a holding segment of the allocator. -/
def seg6 : HoldingSegment :=
  { buy_transaction_id := 12, broker_id := 1, security_id := 1
    buy_date := 10, sell_date := some 20, shares := 100 }

/-- The same position as an aggregated position of the aggregator. -/
def pos6 : AggPosition := { buy_date := 10, sell_date := 20, shares := 100 }

/-- Two open segments used to instantiate the split-equivalence theorem. -/
def csegA : HoldingSegment :=
  { buy_transaction_id := 21, broker_id := 1, security_id := 1
    buy_date := 3, sell_date := none, shares := 100 }

def csegB : HoldingSegment :=
  { buy_transaction_id := 22, broker_id := 1, security_id := 1
    buy_date := 4, sell_date := none, shares := 60 }

/-- A segment with all-positive data for the conservation witness. -/
def seg4w : HoldingSegment :=
  { buy_transaction_id := 72, broker_id := 1, security_id := 1
    buy_date := 5, sell_date := none, shares := 100 }

/-- A dividend of amount 50 without a declared share count. -/
def d4w : Transaction :=
  { id := 17, broker_id := 1, security_id := 1, transaction_date := some 10
    transaction_type := "dividend", shares := none, price_per_share := none
    total_value := some 50, fees := none, net_amount := none }

/-- The allocation the allocator writes for d4w. -/
def c4wbuckets : List AllocBucket :=
  [{ buy_id := 72, shares := 100, amount := 50 }]

/-- A dividend declaring 160 shares with amount 80, exactly exhausting the
100+60 eligible shares of csegA/csegB. -/
def d4x : Transaction :=
  { id := 18, broker_id := 1, security_id := 1, transaction_date := some 10
    transaction_type := "dividend", shares := some 160, price_per_share := none
    total_value := some 80, fees := none, net_amount := none }

/-- The allocation the allocator writes for d4x. -/
def c4xbuckets : List AllocBucket :=
  [{ buy_id := 21, shares := 100, amount := 50 },
   { buy_id := 22, shares := 60, amount := 30 }]

/-- A row carrying both a total_value (77) and a net_amount (88). -/
def row10 : Transaction :=
  { id := 13, broker_id := 1, security_id := 1, transaction_date := some 5
    transaction_type := "dividend", shares := some 10, price_per_share := some 3
    total_value := some 77, fees := none, net_amount := some 88 }

/-- The spec's XIRR round-trip cash flows: -1000 at day 0, +1100 at day 365. -/
noncomputable def cashflows8 : List (ℤ × ℝ) := [(0, -1000), (365, 1100)]

/-- The timed flows of cashflows8: years 0 and 365/365.25 = 1460/1461. -/
noncomputable def tf8 : List (ℝ × ℝ) := xirr_timed_flows cashflows8

/-- NPV of the round-trip cash flows as a function of the rate. -/
noncomputable def npv8 (r : ℝ) : ℝ := npv_at tf8 r

/-! ### Allocation-sum helper lemmas -/

theorem buyAllocated_nil (b : Nat) : buyAllocated [] b = 0 := rfl

theorem buyAllocated_cons (m : MatchRow) (ms : List MatchRow) (b : Nat) :
    buyAllocated (m :: ms) b =
      (if m.buy_transaction_id = b then m.shares else 0) + buyAllocated ms b := by
  simp only [buyAllocated, List.filter_cons, beq_iff_eq]
  split_ifs with h <;> simp [h]

theorem sellAllocated_nil (b : Nat) : sellAllocated [] b = 0 := rfl

theorem sellAllocated_cons (m : MatchRow) (ms : List MatchRow) (b : Nat) :
    sellAllocated (m :: ms) b =
      (if m.sell_transaction_id = b then m.shares else 0) + sellAllocated ms b := by
  simp only [sellAllocated, List.filter_cons, beq_iff_eq]
  split_ifs with h <;> simp [h]

theorem buyAllocated_append (l1 l2 : List MatchRow) (b : Nat) :
    buyAllocated (l1 ++ l2) b = buyAllocated l1 b + buyAllocated l2 b := by
  simp [buyAllocated, List.filter_append]

theorem sellAllocated_append (l1 l2 : List MatchRow) (b : Nat) :
    sellAllocated (l1 ++ l2) b = sellAllocated l1 b + sellAllocated l2 b := by
  simp [sellAllocated, List.filter_append]

theorem buyAllocated_eq_zero {ms : List MatchRow} {b : Nat}
    (h : ∀ m ∈ ms, m.buy_transaction_id ≠ b) : buyAllocated ms b = 0 := by
  induction ms with
  | nil => rfl
  | cons m ms ih =>
    rw [buyAllocated_cons, if_neg (h m (List.mem_cons_self m ms)),
      ih fun x hx => h x (List.mem_cons_of_mem m hx)]
    ring

theorem sellAllocated_eq_zero {ms : List MatchRow} {b : Nat}
    (h : ∀ m ∈ ms, m.sell_transaction_id ≠ b) : sellAllocated ms b = 0 := by
  induction ms with
  | nil => rfl
  | cons m ms ih =>
    rw [sellAllocated_cons, if_neg (h m (List.mem_cons_self m ms)),
      ih fun x hx => h x (List.mem_cons_of_mem m hx)]
    ring

theorem buyAllocated_nonneg {ms : List MatchRow} {b : Nat}
    (h : ∀ m ∈ ms, 0 ≤ m.shares) : 0 ≤ buyAllocated ms b := by
  induction ms with
  | nil => simp [buyAllocated_nil]
  | cons m ms ih =>
    rw [buyAllocated_cons]
    have h1 := h m (List.mem_cons_self m ms)
    have h2 := ih fun x hx => h x (List.mem_cons_of_mem m hx)
    split_ifs <;> linarith

theorem sellAllocated_eq_matchShares {ms : List MatchRow} {i : Nat}
    (h : ∀ m ∈ ms, m.sell_transaction_id = i) :
    sellAllocated ms i = matchShares ms := by
  induction ms with
  | nil => rfl
  | cons m ms ih =>
    rw [sellAllocated_cons, if_pos (h m (List.mem_cons_self m ms)),
      ih fun x hx => h x (List.mem_cons_of_mem m hx)]
    simp [matchShares]

theorem lotRemOf_nil (b : Nat) : lotRemOf [] b = 0 := rfl

theorem lotRemOf_cons (l : BuyLot) (ls : List BuyLot) (b : Nat) :
    lotRemOf (l :: ls) b =
      (if l.tx_id = b then l.shares_remaining else 0) + lotRemOf ls b := by
  simp only [lotRemOf, List.filter_cons, beq_iff_eq]
  split_ifs with h <;> simp [h]

theorem lotRemOf_eq_zero {ls : List BuyLot} {b : Nat}
    (h : b ∉ lotIds ls) : lotRemOf ls b = 0 := by
  induction ls with
  | nil => rfl
  | cons l ls ih =>
    have h1 : l.tx_id ≠ b := fun he => h (by simp [lotIds, he])
    have h2 : b ∉ lotIds ls := fun he => h (by simp [lotIds] at he ⊢; right; exact he)
    rw [lotRemOf_cons, if_neg h1, ih h2]; ring

theorem lotRemOf_nonneg {ls : List BuyLot} {b : Nat}
    (h : ∀ l ∈ ls, 0 ≤ l.shares_remaining) : 0 ≤ lotRemOf ls b := by
  induction ls with
  | nil => simp [lotRemOf_nil]
  | cons l ls ih =>
    rw [lotRemOf_cons]
    have h1 := h l (List.mem_cons_self l ls)
    have h2 := ih fun x hx => h x (List.mem_cons_of_mem l hx)
    split_ifs <;> linarith

theorem lotRemOf_le_of_nodup {ls : List BuyLot} {b : Nat} {c : ℚ}
    (hn : (lotIds ls).Nodup) (hc : 0 ≤ c)
    (h : ∀ l ∈ ls, l.tx_id = b → l.shares_remaining ≤ c) :
    lotRemOf ls b ≤ c := by
  induction ls with
  | nil => simpa [lotRemOf_nil]
  | cons l ls ih =>
    rw [lotRemOf_cons]
    have hn2 : (l.tx_id :: lotIds ls).Nodup := hn
    have hni : l.tx_id ∉ lotIds ls := (List.nodup_cons.mp hn2).1
    have hnd : (lotIds ls).Nodup := (List.nodup_cons.mp hn2).2
    by_cases hb : l.tx_id = b
    · have hz : lotRemOf ls b = 0 := lotRemOf_eq_zero (hb ▸ hni)
      rw [if_pos hb, hz]
      have := h l (List.mem_cons_self l ls) hb
      linarith
    · rw [if_neg hb]
      have := ih hnd fun x hx hxb => h x (List.mem_cons_of_mem l hx) hxb
      linarith

/-! ### sell_loop lemmas -/

theorem sell_loop_sell_id (ctx : SellCtx) :
    ∀ (lots : List BuyLot) (stm : ℚ) (m : MatchRow),
      m ∈ (sell_loop ctx stm lots).1 → m.sell_transaction_id = ctx.sell_tx_id := by
  intro lots
  induction lots with
  | nil => intro stm m hm; simp [sell_loop] at hm
  | cons lot rest ih =>
    intro stm m hm
    simp only [sell_loop] at hm
    split_ifs at hm with h1 h2
    · simp at hm
    · rcases List.mem_cons.mp hm with h | h
      · subst h; rfl
      · exact ih _ m h
    · rcases List.mem_cons.mp hm with h | h
      · subst h; rfl
      · simp at h

theorem sell_loop_buy_ids (ctx : SellCtx) :
    ∀ (lots : List BuyLot) (stm : ℚ) (m : MatchRow),
      m ∈ (sell_loop ctx stm lots).1 → m.buy_transaction_id ∈ lotIds lots := by
  intro lots
  induction lots with
  | nil => intro stm m hm; simp [sell_loop] at hm
  | cons lot rest ih =>
    intro stm m hm
    simp only [sell_loop] at hm
    split_ifs at hm with h1 h2
    · simp at hm
    · rcases List.mem_cons.mp hm with h | h
      · subst h; simp [lotIds]
      · exact List.mem_cons_of_mem _ (ih _ m h)
    · rcases List.mem_cons.mp hm with h | h
      · subst h; simp [lotIds]
      · simp at h

theorem sell_loop_pos_shares (ctx : SellCtx) :
    ∀ (lots : List BuyLot) (stm : ℚ),
      (∀ l ∈ lots, FLOAT_TOLERANCE < l.shares_remaining) →
      ∀ m ∈ (sell_loop ctx stm lots).1, 0 < m.shares := by
  intro lots
  induction lots with
  | nil => intro stm _ m hm; simp [sell_loop] at hm
  | cons lot rest ih =>
    intro stm hg m hm
    simp only [sell_loop] at hm
    have htol : (0 : ℚ) < FLOAT_TOLERANCE := by norm_num [FLOAT_TOLERANCE]
    have hlot := hg lot (List.mem_cons_self lot rest)
    split_ifs at hm with h1 h2
    · simp at hm
    · rcases List.mem_cons.mp hm with h | h
      · subst h
        simp only [lt_min_iff]
        constructor <;> linarith
      · exact ih _ (fun l hl => hg l (List.mem_cons_of_mem lot hl)) m h
    · rcases List.mem_cons.mp hm with h | h
      · subst h
        simp only [lt_min_iff]
        constructor <;> linarith
      · simp at h

theorem sell_loop_sum (ctx : SellCtx) :
    ∀ (lots : List BuyLot) (stm : ℚ),
      matchShares (sell_loop ctx stm lots).1 = stm - (sell_loop ctx stm lots).2.1 := by
  intro lots
  induction lots with
  | nil => intro stm; simp [sell_loop, matchShares]
  | cons lot rest ih =>
    intro stm
    simp only [sell_loop]
    split_ifs with h1 h2
    · simp [matchShares]
    · have := ih (stm - min stm lot.shares_remaining)
      simp only [matchShares, List.map_cons, List.sum_cons] at this ⊢
      linarith
    · simp [matchShares]

theorem sell_loop_stm_nonneg (ctx : SellCtx) :
    ∀ (lots : List BuyLot) (stm : ℚ), 0 ≤ stm → 0 ≤ (sell_loop ctx stm lots).2.1 := by
  intro lots
  induction lots with
  | nil => intro stm h; simpa [sell_loop]
  | cons lot rest ih =>
    intro stm h
    simp only [sell_loop]
    split_ifs with h1 h2
    · simpa
    · exact ih _ (by have := min_le_left stm lot.shares_remaining; linarith)
    · have := min_le_left stm lot.shares_remaining
      dsimp only
      linarith

theorem sell_loop_stm_le (ctx : SellCtx) :
    ∀ (lots : List BuyLot) (stm : ℚ),
      (∀ l ∈ lots, 0 ≤ l.shares_remaining) → 0 ≤ stm →
      (sell_loop ctx stm lots).2.1 ≤ stm := by
  intro lots
  induction lots with
  | nil => intro stm _ _; simp [sell_loop]
  | cons lot rest ih =>
    intro stm hg h0
    simp only [sell_loop]
    split_ifs with h1 h2
    · simp
    · have hlot := hg lot (List.mem_cons_self lot rest)
      have hmin : 0 ≤ min stm lot.shares_remaining := le_min h0 hlot
      have := ih (stm - min stm lot.shares_remaining)
        (fun l hl => hg l (List.mem_cons_of_mem lot hl))
        (by have := min_le_left stm lot.shares_remaining; linarith)
      linarith
    · have hlot := hg lot (List.mem_cons_self lot rest)
      have hmin : 0 ≤ min stm lot.shares_remaining := le_min h0 hlot
      dsimp only
      linarith

theorem sell_loop_rem_pos (ctx : SellCtx) :
    ∀ (lots : List BuyLot) (stm : ℚ),
      (∀ l ∈ lots, FLOAT_TOLERANCE < l.shares_remaining) →
      ∀ l ∈ (sell_loop ctx stm lots).2.2, FLOAT_TOLERANCE < l.shares_remaining := by
  intro lots
  induction lots with
  | nil => intro stm _ l hl; simp [sell_loop] at hl
  | cons lot rest ih =>
    intro stm hg l hl
    simp only [sell_loop] at hl
    split_ifs at hl with h1 h2
    · exact hg l hl
    · exact ih _ (fun x hx => hg x (List.mem_cons_of_mem lot hx)) l hl
    · rcases List.mem_cons.mp hl with h | h
      · subst h; simpa using lt_of_not_le (by simpa using h2)
      · exact hg l (List.mem_cons_of_mem lot h)

theorem sell_loop_ids_suffix (ctx : SellCtx) :
    ∀ (lots : List BuyLot) (stm : ℚ),
      lotIds (sell_loop ctx stm lots).2.2 <:+ lotIds lots := by
  intro lots
  induction lots with
  | nil => intro stm; simp [sell_loop]
  | cons lot rest ih =>
    intro stm
    simp only [sell_loop]
    split_ifs with h1 h2
    · exact List.suffix_refl _
    · exact (ih _).trans (List.suffix_cons _ _)
    · simp only [lotIds, List.map_cons]
      exact List.suffix_refl _

theorem sell_loop_done (ctx : SellCtx) :
    ∀ (lots : List BuyLot) (stm : ℚ),
      (sell_loop ctx stm lots).2.1 ≤ FLOAT_TOLERANCE ∨
        (sell_loop ctx stm lots).2.2 = [] := by
  intro lots
  induction lots with
  | nil => intro stm; right; simp [sell_loop]
  | cons lot rest ih =>
    intro stm
    simp only [sell_loop]
    split_ifs with h1 h2
    · left; exact h1
    · exact ih _
    · left
      rcases min_cases stm lot.shares_remaining with ⟨he, _⟩ | ⟨he, hlt⟩
      · rw [he]
        norm_num [FLOAT_TOLERANCE]
      · exfalso
        apply h2
        rw [he]
        norm_num [FLOAT_TOLERANCE]


theorem sell_loop_consumed (ctx : SellCtx) :
    ∀ (lots : List BuyLot) (stm : ℚ) (b : Nat),
      buyAllocated (sell_loop ctx stm lots).1 b +
        lotRemOf (sell_loop ctx stm lots).2.2 b ≤ lotRemOf lots b := by
  intro lots
  induction lots with
  | nil => intro stm b; simp [sell_loop, buyAllocated_nil, lotRemOf_nil]
  | cons lot rest ih =>
    intro stm b
    simp only [sell_loop]
    split_ifs with h1 h2
    · simp [buyAllocated_nil]
    · have := ih (stm - min stm lot.shares_remaining) b
      rw [buyAllocated_cons, lotRemOf_cons]
      have hmin := min_le_right stm lot.shares_remaining
      split_ifs with hb <;> linarith
    · rw [buyAllocated_cons, lotRemOf_cons, lotRemOf_cons]
      simp only [buyAllocated_nil]
      have hmin := min_le_right stm lot.shares_remaining
      split_ifs with hb <;> linarith

theorem sell_loop_track (ctx : SellCtx) :
    ∀ (lots : List BuyLot) (stm : ℚ),
      (lotIds lots).Nodup →
      ∀ l ∈ lots,
        (∃ l2 ∈ (sell_loop ctx stm lots).2.2, l2.tx_id = l.tx_id ∧
          l2.shares_remaining =
            l.shares_remaining - buyAllocated (sell_loop ctx stm lots).1 l.tx_id) ∨
        (l.tx_id ∉ lotIds (sell_loop ctx stm lots).2.2 ∧
          l.shares_remaining - buyAllocated (sell_loop ctx stm lots).1 l.tx_id ≤
            FLOAT_TOLERANCE) := by
  intro lots
  induction lots with
  | nil => intro stm _ l hl; simp at hl
  | cons lot rest ih =>
    intro stm hn l hl
    have hn2 : (lot.tx_id :: lotIds rest).Nodup := hn
    have hni : lot.tx_id ∉ lotIds rest := (List.nodup_cons.mp hn2).1
    have hnd : (lotIds rest).Nodup := (List.nodup_cons.mp hn2).2
    simp only [sell_loop]
    split_ifs with h1 h2
    · left
      exact ⟨l, hl, rfl, by simp [buyAllocated_nil]⟩
    · -- pop branch
      rcases List.mem_cons.mp hl with rfl | hmem
      · right
        have hz : buyAllocated (sell_loop ctx (stm - min stm l.shares_remaining) rest).1
            l.tx_id = 0 :=
          buyAllocated_eq_zero fun m hm he =>
            hni (he ▸ sell_loop_buy_ids ctx rest _ m hm)
        constructor
        · intro hmem2
          exact hni (List.IsSuffix.subset (sell_loop_ids_suffix ctx rest _) hmem2)
        · rw [buyAllocated_cons, if_pos rfl, hz]
          linarith [h2]
      · have hne : l.tx_id ≠ lot.tx_id := fun he =>
          hni (he ▸ (List.mem_map.mpr ⟨l, hmem, rfl⟩))
        have := ih (stm - min stm lot.shares_remaining) hnd l hmem
        rw [buyAllocated_cons, if_neg (fun he => hne he.symm)] at *
        simpa using this
    · -- head kept branch
      rcases List.mem_cons.mp hl with rfl | hmem
      · left
        refine ⟨_, List.mem_cons_self _ _, rfl, ?_⟩
        rw [buyAllocated_cons, if_pos rfl, buyAllocated_nil]
        show _ - _ = _ - (min _ _ + 0)
        ring
      · have hne : l.tx_id ≠ lot.tx_id := fun he =>
          hni (he ▸ (List.mem_map.mpr ⟨l, hmem, rfl⟩))
        left
        refine ⟨l, List.mem_cons_of_mem _ hmem, rfl, ?_⟩
        rw [buyAllocated_cons, if_neg (fun he => hne he.symm), buyAllocated_nil]
        ring


/-! ### processSell step lemmas -/

theorem processSell_eq_of_skip {table : List MatchRow} {s : Transaction}
    (bk sec : Nat) (st : GroupState) (h : skipCond table s) :
    processSell bk sec table st s = st := by
  unfold processSell
  rcases h with h | h | h
  · rw [h]
  · cases hd : s.transaction_date with
    | none => rfl
    | some d =>
      simp only []
      rw [if_pos h]
  · cases hd : s.transaction_date with
    | none => rfl
    | some d =>
      simp only []
      by_cases h1 : absFloat s.shares ≤ 0
      · rw [if_pos h1]
      · rw [if_neg h1, if_pos h]

theorem processSell_eq_of_not_skip {table : List MatchRow} {s : Transaction}
    (bk sec : Nat) (st : GroupState) (h : ¬ skipCond table s) :
    processSell bk sec table st s =
      { lots := (sell_loop (sellCtxOf bk sec table s) (sellStm0 table s) st.lots).2.2
        inserted := st.inserted ++
          (sell_loop (sellCtxOf bk sec table s) (sellStm0 table s) st.lots).1
        unmatched := st.unmatched +
          (if FLOAT_TOLERANCE <
              (sell_loop (sellCtxOf bk sec table s) (sellStm0 table s) st.lots).2.1
            then (sell_loop (sellCtxOf bk sec table s) (sellStm0 table s) st.lots).2.1
            else 0) } := by
  unfold skipCond at h
  push_neg at h
  obtain ⟨hd, hsh, hstm⟩ := h
  unfold processSell
  cases hdate : s.transaction_date with
  | none => exact absurd hdate hd
  | some d =>
    simp only []
    rw [if_neg (not_le.mpr hsh), if_neg (not_le.mpr hstm)]
    rfl

theorem processSell_good {table : List MatchRow} {s : Transaction}
    (bk sec : Nat) (st : GroupState) (hg : goodLots st.lots) :
    goodLots (processSell bk sec table st s).lots := by
  by_cases h : skipCond table s
  · rw [processSell_eq_of_skip bk sec st h]; exact hg
  · rw [processSell_eq_of_not_skip bk sec st h]
    constructor
    · exact List.Nodup.sublist (sell_loop_ids_suffix _ _ _).sublist hg.1
    · exact sell_loop_rem_pos _ _ _ hg.2

theorem processSell_ids_suffix {table : List MatchRow} {s : Transaction}
    (bk sec : Nat) (st : GroupState) :
    lotIds (processSell bk sec table st s).lots <:+ lotIds st.lots := by
  by_cases h : skipCond table s
  · rw [processSell_eq_of_skip bk sec st h]
  · rw [processSell_eq_of_not_skip bk sec st h]
    exact sell_loop_ids_suffix _ _ _

theorem processSell_lots_nil {table : List MatchRow} {s : Transaction}
    (bk sec : Nat) (st : GroupState) (h : st.lots = []) :
    (processSell bk sec table st s).lots = [] ∧
      (processSell bk sec table st s).inserted = st.inserted := by
  by_cases hs : skipCond table s
  · rw [processSell_eq_of_skip bk sec st hs]; exact ⟨h, rfl⟩
  · rw [processSell_eq_of_not_skip bk sec st hs, h]
    simp [sell_loop]

theorem processSell_inserted {table : List MatchRow} {s : Transaction}
    (bk sec : Nat) (st : GroupState) :
    ∃ Δ, (processSell bk sec table st s).inserted = st.inserted ++ Δ ∧
      (∀ m ∈ Δ, m.sell_transaction_id = s.id ∧
        m.buy_transaction_id ∈ lotIds st.lots) ∧
      ((∀ l ∈ st.lots, FLOAT_TOLERANCE < l.shares_remaining) →
        ∀ m ∈ Δ, 0 < m.shares) := by
  by_cases h : skipCond table s
  · exact ⟨[], by rw [processSell_eq_of_skip bk sec st h]; simp, by simp, by simp⟩
  · refine ⟨_, by rw [processSell_eq_of_not_skip bk sec st h], fun m hm => ⟨?_, ?_⟩, ?_⟩
    · exact sell_loop_sell_id _ _ _ m hm
    · exact sell_loop_buy_ids _ _ _ m hm
    · intro hrem m hm
      exact sell_loop_pos_shares _ _ _ hrem m hm

theorem processSell_consumed {table : List MatchRow} {s : Transaction}
    (bk sec : Nat) (st : GroupState) (b : Nat) :
    buyAllocated (processSell bk sec table st s).inserted b +
        lotRemOf (processSell bk sec table st s).lots b ≤
      buyAllocated st.inserted b + lotRemOf st.lots b := by
  by_cases h : skipCond table s
  · rw [processSell_eq_of_skip bk sec st h]
  · rw [processSell_eq_of_not_skip bk sec st h]
    simp only [buyAllocated_append]
    have := sell_loop_consumed (sellCtxOf bk sec table s) st.lots (sellStm0 table s) b
    linarith

theorem processSell_alloc_frozen {table : List MatchRow} {s : Transaction}
    (bk sec : Nat) (st : GroupState) (b : Nat) (hb : b ∉ lotIds st.lots) :
    buyAllocated (processSell bk sec table st s).inserted b =
      buyAllocated st.inserted b := by
  by_cases h : skipCond table s
  · rw [processSell_eq_of_skip bk sec st h]
  · rw [processSell_eq_of_not_skip bk sec st h]
    simp only [buyAllocated_append]
    have hz : buyAllocated
        (sell_loop (sellCtxOf bk sec table s) (sellStm0 table s) st.lots).1 b = 0 :=
      buyAllocated_eq_zero fun m hm he =>
        hb (by rw [← he]; exact sell_loop_buy_ids _ _ _ m hm)
    rw [hz]
    ring

theorem processSell_sell_frozen {table : List MatchRow} {s : Transaction}
    (bk sec : Nat) (st : GroupState) (i : Nat) (hi : s.id ≠ i) :
    sellAllocated (processSell bk sec table st s).inserted i =
      sellAllocated st.inserted i := by
  by_cases h : skipCond table s
  · rw [processSell_eq_of_skip bk sec st h]
  · rw [processSell_eq_of_not_skip bk sec st h]
    simp only [sellAllocated_append]
    have hz : sellAllocated
        (sell_loop (sellCtxOf bk sec table s) (sellStm0 table s) st.lots).1 i = 0 :=
      sellAllocated_eq_zero fun m hm he => hi (by
        have hid := sell_loop_sell_id _ _ _ m hm
        rw [hid] at he
        exact he)
    rw [hz]
    ring

theorem processSell_track {table : List MatchRow} {s : Transaction}
    (bk sec : Nat) (st : GroupState) (hg : goodLots st.lots)
    (l : BuyLot) (hl : l ∈ st.lots) :
    (∃ l2 ∈ (processSell bk sec table st s).lots, l2.tx_id = l.tx_id ∧
      l2.shares_remaining = l.shares_remaining -
        (buyAllocated (processSell bk sec table st s).inserted l.tx_id -
          buyAllocated st.inserted l.tx_id)) ∨
    (l.tx_id ∉ lotIds (processSell bk sec table st s).lots ∧
      l.shares_remaining -
        (buyAllocated (processSell bk sec table st s).inserted l.tx_id -
          buyAllocated st.inserted l.tx_id) ≤ FLOAT_TOLERANCE) := by
  by_cases h : skipCond table s
  · rw [processSell_eq_of_skip bk sec st h]
    left
    exact ⟨l, hl, rfl, by ring⟩
  · rw [processSell_eq_of_not_skip bk sec st h]
    simp only [buyAllocated_append]
    have := sell_loop_track (sellCtxOf bk sec table s) st.lots (sellStm0 table s)
      hg.1 l hl
    rcases this with ⟨l2, hl2, he, hrem⟩ | ⟨hnm, hrem⟩
    · left
      exact ⟨l2, hl2, he, by rw [hrem]; ring⟩
    · right
      exact ⟨hnm, by linarith⟩

theorem processSell_self {table : List MatchRow} {s : Transaction}
    (bk sec : Nat) (st : GroupState) (hg : goodLots st.lots) :
    (skipCond table s →
      sellAllocated (processSell bk sec table st s).inserted s.id =
        sellAllocated st.inserted s.id) ∧
    (¬ skipCond table s →
      0 ≤ sellAllocated (processSell bk sec table st s).inserted s.id -
          sellAllocated st.inserted s.id ∧
      sellAllocated (processSell bk sec table st s).inserted s.id -
          sellAllocated st.inserted s.id ≤ sellStm0 table s ∧
      (sellStm0 table s -
          (sellAllocated (processSell bk sec table st s).inserted s.id -
            sellAllocated st.inserted s.id) ≤ FLOAT_TOLERANCE ∨
        (processSell bk sec table st s).lots = [])) := by
  constructor
  · intro h
    rw [processSell_eq_of_skip bk sec st h]
  · intro h
    have hstm : FLOAT_TOLERANCE < sellStm0 table s := by
      unfold skipCond at h
      push_neg at h
      exact h.2.2
    have htol : (0 : ℚ) < FLOAT_TOLERANCE := by norm_num [FLOAT_TOLERANCE]
    rw [processSell_eq_of_not_skip bk sec st h]
    simp only [sellAllocated_append]
    set r := sell_loop (sellCtxOf bk sec table s) (sellStm0 table s) st.lots with hr
    have hsid : ∀ m ∈ r.1, m.sell_transaction_id = s.id := fun m hm =>
      sell_loop_sell_id _ _ _ m hm
    have hA : sellAllocated r.1 s.id = sellStm0 table s - r.2.1 := by
      rw [sellAllocated_eq_matchShares hsid]
      exact sell_loop_sum _ _ _
    have hle : r.2.1 ≤ sellStm0 table s :=
      sell_loop_stm_le _ _ _ (fun l hl => le_of_lt (lt_trans htol (hg.2 l hl)))
        (by linarith)
    have hnn : 0 ≤ r.2.1 := sell_loop_stm_nonneg _ _ _ (by linarith)
    refine ⟨by rw [hA]; ring_nf; linarith, by rw [hA]; ring_nf; linarith, ?_⟩
    rcases sell_loop_done (sellCtxOf bk sec table s) st.lots (sellStm0 table s) with
      hd | hd
    · left; rw [hA]; ring_nf; linarith [hd]
    · right; exact hd

/-! ### Fold lemmas over the sells loop -/

theorem foldSells_good (bk sec : Nat) (table : List MatchRow) :
    ∀ (sells : List Transaction) (st : GroupState), goodLots st.lots →
      goodLots ((sells.foldl (processSell bk sec table) st).lots) := by
  intro sells
  induction sells with
  | nil => intro st hg; exact hg
  | cons s rest ih =>
    intro st hg
    exact ih _ (processSell_good bk sec st hg)

theorem foldSells_ids_suffix (bk sec : Nat) (table : List MatchRow) :
    ∀ (sells : List Transaction) (st : GroupState),
      lotIds ((sells.foldl (processSell bk sec table) st).lots) <:+ lotIds st.lots := by
  intro sells
  induction sells with
  | nil => intro st; exact List.suffix_refl _
  | cons s rest ih =>
    intro st
    exact (ih _).trans (processSell_ids_suffix bk sec st)

theorem foldSells_empty (bk sec : Nat) (table : List MatchRow) :
    ∀ (sells : List Transaction) (st : GroupState), st.lots = [] →
      (sells.foldl (processSell bk sec table) st).lots = [] ∧
      (sells.foldl (processSell bk sec table) st).inserted = st.inserted := by
  intro sells
  induction sells with
  | nil => intro st h; exact ⟨h, rfl⟩
  | cons s rest ih =>
    intro st h
    obtain ⟨h1, h2⟩ := @processSell_lots_nil table s bk sec st h
    obtain ⟨h3, h4⟩ := ih _ h1
    exact ⟨h3, h4.trans h2⟩

theorem foldSells_consumed (bk sec : Nat) (table : List MatchRow) :
    ∀ (sells : List Transaction) (st : GroupState) (b : Nat),
      buyAllocated ((sells.foldl (processSell bk sec table) st).inserted) b +
          lotRemOf ((sells.foldl (processSell bk sec table) st).lots) b ≤
        buyAllocated st.inserted b + lotRemOf st.lots b := by
  intro sells
  induction sells with
  | nil => intro st b; exact le_refl _
  | cons s rest ih =>
    intro st b
    exact (ih _ b).trans (processSell_consumed bk sec st b)

theorem foldSells_alloc_frozen (bk sec : Nat) (table : List MatchRow) :
    ∀ (sells : List Transaction) (st : GroupState) (b : Nat),
      b ∉ lotIds st.lots →
      buyAllocated ((sells.foldl (processSell bk sec table) st).inserted) b =
        buyAllocated st.inserted b := by
  intro sells
  induction sells with
  | nil => intro st b _; rfl
  | cons s rest ih =>
    intro st b hb
    have hb2 : b ∉ lotIds (processSell bk sec table st s).lots := fun hc =>
      hb ((processSell_ids_suffix bk sec st).subset hc)
    rw [List.foldl_cons, ih _ b hb2, processSell_alloc_frozen bk sec st b hb]

theorem foldSells_inserted (bk sec : Nat) (table : List MatchRow) :
    ∀ (sells : List Transaction) (st : GroupState), goodLots st.lots →
      ∃ Δ, (sells.foldl (processSell bk sec table) st).inserted = st.inserted ++ Δ ∧
        ∀ m ∈ Δ, 0 < m.shares ∧ m.buy_transaction_id ∈ lotIds st.lots ∧
          m.sell_transaction_id ∈ sells.map Transaction.id := by
  intro sells
  induction sells with
  | nil => intro st _; exact ⟨[], by simp, by simp⟩
  | cons s rest ih =>
    intro st hg
    obtain ⟨Δ1, he1, hprop1, hpos1⟩ := @processSell_inserted table s bk sec st
    obtain ⟨Δ2, he2, hprop2⟩ := ih (processSell bk sec table st s)
      (processSell_good bk sec st hg)
    refine ⟨Δ1 ++ Δ2, ?_, ?_⟩
    · rw [List.foldl_cons, he2, he1, List.append_assoc]
    · intro m hm
      rcases List.mem_append.mp hm with hm1 | hm2
      · exact ⟨hpos1 hg.2 m hm1, (hprop1 m hm1).2,
          by simp [(hprop1 m hm1).1]⟩
      · obtain ⟨hp, hb, hs⟩ := hprop2 m hm2
        exact ⟨hp, (processSell_ids_suffix bk sec st).subset hb,
          List.mem_cons_of_mem _ hs⟩

theorem foldSells_sell_frozen (bk sec : Nat) (table : List MatchRow) :
    ∀ (sells : List Transaction) (st : GroupState) (i : Nat),
      (∀ s' ∈ sells, s'.id ≠ i) →
      sellAllocated ((sells.foldl (processSell bk sec table) st).inserted) i =
        sellAllocated st.inserted i := by
  intro sells
  induction sells with
  | nil => intro st i _; rfl
  | cons s rest ih =>
    intro st i hi
    rw [List.foldl_cons, ih _ i fun s' hs' => hi s' (List.mem_cons_of_mem _ hs'),
      processSell_sell_frozen bk sec st i (hi s (List.mem_cons_self s rest))]

theorem foldSells_track (bk sec : Nat) (table : List MatchRow) :
    ∀ (sells : List Transaction) (st : GroupState), goodLots st.lots →
      ∀ l ∈ st.lots,
      (∃ l2 ∈ (sells.foldl (processSell bk sec table) st).lots,
        l2.tx_id = l.tx_id ∧
        l2.shares_remaining = l.shares_remaining -
          (buyAllocated ((sells.foldl (processSell bk sec table) st).inserted) l.tx_id -
            buyAllocated st.inserted l.tx_id)) ∨
      (l.tx_id ∉ lotIds ((sells.foldl (processSell bk sec table) st).lots) ∧
        l.shares_remaining -
          (buyAllocated ((sells.foldl (processSell bk sec table) st).inserted) l.tx_id -
            buyAllocated st.inserted l.tx_id) ≤ FLOAT_TOLERANCE) := by
  intro sells
  induction sells with
  | nil =>
    intro st hg l hl
    left
    exact ⟨l, hl, rfl, by rw [List.foldl_nil]; ring⟩
  | cons s rest ih =>
    intro st hg l hl
    simp only [List.foldl_cons]
    have hg2 := @processSell_good table s bk sec st hg
    rcases @processSell_track table s bk sec st hg l hl with
      ⟨l2, hl2, hid, hrem⟩ | ⟨hnm, hrem⟩
    · rcases ih _ hg2 l2 hl2 with ⟨l3, hl3, hid3, hrem3⟩ | ⟨hnm3, hrem3⟩
      · left
        refine ⟨l3, hl3, hid3.trans hid, ?_⟩
        rw [hrem3, hrem, hid]
        ring
      · right
        refine ⟨hid ▸ hnm3, ?_⟩
        rw [hrem, hid] at hrem3
        linarith [hrem3]
    · right
      have hfz := foldSells_alloc_frozen bk sec table rest
        (processSell bk sec table st s) l.tx_id hnm
      constructor
      · intro hc
        exact hnm ((foldSells_ids_suffix bk sec table rest _).subset hc)
      · rw [hfz]
        exact hrem

theorem foldSells_per_sell (bk sec : Nat) (table : List MatchRow) :
    ∀ (sells : List Transaction) (st : GroupState), goodLots st.lots →
      (sells.map Transaction.id).Nodup →
      ∀ s ∈ sells,
      (skipCond table s →
        sellAllocated ((sells.foldl (processSell bk sec table) st).inserted) s.id =
          sellAllocated st.inserted s.id) ∧
      (¬ skipCond table s →
        0 ≤ sellAllocated ((sells.foldl (processSell bk sec table) st).inserted) s.id -
            sellAllocated st.inserted s.id ∧
        sellAllocated ((sells.foldl (processSell bk sec table) st).inserted) s.id -
            sellAllocated st.inserted s.id ≤ sellStm0 table s ∧
        (sellStm0 table s -
            (sellAllocated ((sells.foldl (processSell bk sec table) st).inserted) s.id -
              sellAllocated st.inserted s.id) ≤ FLOAT_TOLERANCE ∨
          (sells.foldl (processSell bk sec table) st).lots = [])) := by
  intro sells
  induction sells with
  | nil => intro st _ _ s hs; simp at hs
  | cons s0 rest ih =>
    intro st hg hnd s hs
    have hn2 : (s0.id :: rest.map Transaction.id).Nodup := hnd
    have hni : s0.id ∉ rest.map Transaction.id := (List.nodup_cons.mp hn2).1
    have hndr : (rest.map Transaction.id).Nodup := (List.nodup_cons.mp hn2).2
    have hg2 := @processSell_good table s0 bk sec st hg
    rcases List.mem_cons.mp hs with rfl | hmem
    · -- s is the head sell
      have hfz : sellAllocated
          ((rest.foldl (processSell bk sec table) (processSell bk sec table st s)).inserted) s.id =
          sellAllocated ((processSell bk sec table st s).inserted) s.id :=
        foldSells_sell_frozen bk sec table rest _ s.id
          (fun s' hs' he => hni (he ▸ List.mem_map.mpr ⟨s', hs', rfl⟩))
      obtain ⟨hskip, hrun⟩ := @processSell_self table s bk sec st hg
      constructor
      · intro h
        rw [List.foldl_cons, hfz, hskip h]
      · intro h
        obtain ⟨h1, h2, h3⟩ := hrun h
        rw [List.foldl_cons, hfz]
        refine ⟨h1, h2, ?_⟩
        rcases h3 with h3 | h3
        · left; exact h3
        · right
          exact (foldSells_empty bk sec table rest _ h3).1
    · -- s is in the tail
      have hne : s0.id ≠ s.id := fun he => hni (he ▸ List.mem_map.mpr ⟨s, hmem, rfl⟩)
      have hfz := @processSell_sell_frozen table s0 bk sec st s.id hne
      have := ih (processSell bk sec table st s0) hg2 hndr s hmem
      rw [List.foldl_cons]
      rw [hfz] at this
      exact this


theorem foldSells_all_skip (bk sec : Nat) (table : List MatchRow) :
    ∀ (sells : List Transaction) (st : GroupState),
      (∀ s ∈ sells, skipCond table s) →
      sells.foldl (processSell bk sec table) st = st := by
  intro sells
  induction sells with
  | nil => intro st _; rfl
  | cons s rest ih =>
    intro st h
    rw [List.foldl_cons, processSell_eq_of_skip bk sec st (h s (List.mem_cons_self s rest)),
      ih st fun s2 hs2 => h s2 (List.mem_cons_of_mem s hs2)]

/-! ### buildLots lemmas -/

theorem buildLot_eq_some {table : List MatchRow} {r : Transaction} {l : BuyLot}
    (he : buildLot table r = some l) :
    l.tx_id = r.id ∧ r.transaction_date ≠ none ∧ 0 < absFloat r.shares ∧
      l.shares_remaining = absFloat r.shares - buyAllocated table r.id ∧
      FLOAT_TOLERANCE < l.shares_remaining := by
  unfold buildLot at he
  cases hd : r.transaction_date with
  | none => rw [hd] at he; exact absurd he (by simp)
  | some d =>
    rw [hd] at he
    simp only [] at he
    split_ifs at he with h1 h2
    have hlt := lt_of_not_le h1
    have h3 := lt_of_not_le h2
    injection he with he2
    subst he2
    exact ⟨rfl, by simp [hd], hlt, rfl, h3⟩

theorem buildLot_eq_some_intro {table : List MatchRow} {r : Transaction} {d : Nat}
    (hd : r.transaction_date = some d) (hsh : 0 < absFloat r.shares)
    (hrem : FLOAT_TOLERANCE < absFloat r.shares - buyAllocated table r.id) :
    buildLot table r = some
      { tx_id := r.id, buy_date := d,
        shares_remaining := absFloat r.shares - buyAllocated table r.id,
        cost_per_share := |coalesce_amount r true| / absFloat r.shares } := by
  unfold buildLot
  rw [hd]
  simp only []
  rw [if_neg (not_le.mpr hsh), if_neg (not_le.mpr hrem)]

theorem buildLots_mem_elim {table : List MatchRow} {buys : List Transaction}
    {l : BuyLot} (hl : l ∈ buildLots table buys) :
    ∃ r ∈ buys, l.tx_id = r.id ∧ r.transaction_date ≠ none ∧
      0 < absFloat r.shares ∧
      l.shares_remaining = absFloat r.shares - buyAllocated table r.id ∧
      FLOAT_TOLERANCE < l.shares_remaining := by
  obtain ⟨r, hr, he⟩ := List.mem_filterMap.mp hl
  exact ⟨r, hr, buildLot_eq_some he⟩

theorem buildLots_mem_intro {table : List MatchRow} {buys : List Transaction}
    {r : Transaction} {d : Nat} (hr : r ∈ buys) (hd : r.transaction_date = some d)
    (hsh : 0 < absFloat r.shares)
    (hrem : FLOAT_TOLERANCE < absFloat r.shares - buyAllocated table r.id) :
    ∃ l ∈ buildLots table buys, l.tx_id = r.id ∧
      l.shares_remaining = absFloat r.shares - buyAllocated table r.id :=
  ⟨_, List.mem_filterMap.mpr ⟨r, hr, buildLot_eq_some_intro hd hsh hrem⟩, rfl, rfl⟩

theorem buildLots_ids_sublist (table : List MatchRow) :
    ∀ buys : List Transaction,
      List.Sublist (lotIds (buildLots table buys)) (buys.map Transaction.id) := by
  intro buys
  induction buys with
  | nil => simp [buildLots, lotIds]
  | cons r rest ih =>
    show List.Sublist (lotIds (List.filterMap _ (r :: rest))) _
    rw [List.filterMap_cons]
    cases he : buildLot table r with
    | none => exact ih.trans (List.sublist_cons_self _ _)
    | some l =>
      have hid := (buildLot_eq_some he).1
      show List.Sublist (lotIds (l :: buildLots table rest))
        (r.id :: rest.map Transaction.id)
      rw [lotIds, List.map_cons, hid]
      exact List.Sublist.cons₂ _ ih

theorem buildLots_rem_pos (table : List MatchRow) (buys : List Transaction) :
    ∀ l ∈ buildLots table buys, FLOAT_TOLERANCE < l.shares_remaining := by
  intro l hl
  exact (buildLots_mem_elim hl).choose_spec.2.2.2.2.2

theorem buildLots_good {table : List MatchRow} {buys : List Transaction}
    (hn : (buys.map Transaction.id).Nodup) : goodLots (buildLots table buys) := by
  refine ⟨List.Nodup.sublist (buildLots_ids_sublist table buys) hn, ?_⟩
  exact buildLots_rem_pos table buys

/-! ### Stable sort lemmas -/

theorem insertByKey_perm (t : Transaction) :
    ∀ l : List Transaction, (insertByKey t l).Perm (t :: l) := by
  intro l
  induction l with
  | nil => exact List.Perm.refl _
  | cons u us ih =>
    rw [insertByKey]
    split_ifs with h
    · exact ((ih.cons u).trans (List.Perm.swap t u us)).symm.symm
    · exact List.Perm.refl _

theorem sortByDateId_perm (l : List Transaction) : (sortByDateId l).Perm l := by
  induction l with
  | nil => exact List.Perm.refl _
  | cons t ts ih =>
    have : sortByDateId (t :: ts) = insertByKey t (sortByDateId ts) := rfl
    rw [this]
    exact (insertByKey_perm t (sortByDateId ts)).trans (ih.cons t)

theorem sortByDateId_mem {a : Transaction} {l : List Transaction} :
    a ∈ sortByDateId l ↔ a ∈ l :=
  (sortByDateId_perm l).mem_iff

theorem sortByDateId_map_nodup {l : List Transaction}
    (h : (l.map Transaction.id).Nodup) :
    ((sortByDateId l).map Transaction.id).Nodup :=
  (((sortByDateId_perm l).map Transaction.id).nodup_iff).mpr h


/-! ### matchGroup-level lemmas -/

theorem matchGroup_fst (bk sec : Nat) (table : List MatchRow)
    (buysRaw sellsRaw : List Transaction) :
    (matchGroup bk sec table buysRaw sellsRaw).1 =
      ((sortByDateId sellsRaw).foldl (processSell bk sec table)
        { lots := buildLots table (sortByDateId buysRaw), inserted := [],
          unmatched := 0 }).inserted := rfl

theorem matchGroup_cap_buy (bk sec : Nat) (table : List MatchRow)
    (buysRaw sellsRaw : List Transaction)
    (hnb : (buysRaw.map Transaction.id).Nodup) {b : Transaction}
    (hb : b ∈ buysRaw) :
    buyAllocated (matchGroup bk sec table buysRaw sellsRaw).1 b.id ≤
      max 0 (absFloat b.shares - buyAllocated table b.id) := by
  rw [matchGroup_fst]
  have htol : (0 : ℚ) < FLOAT_TOLERANCE := by norm_num [FLOAT_TOLERANCE]
  set buys := sortByDateId buysRaw with hbuys
  set sells := sortByDateId sellsRaw with hsells
  have hnb2 : (buys.map Transaction.id).Nodup := sortByDateId_map_nodup hnb
  have hgood := @buildLots_good table _ hnb2
  set st0 : GroupState :=
    { lots := buildLots table buys, inserted := [], unmatched := 0 } with hst0
  have hcons := foldSells_consumed bk sec table sells st0 b.id
  have hfin := foldSells_good bk sec table sells st0 hgood
  have hnn : 0 ≤ lotRemOf ((sells.foldl (processSell bk sec table) st0).lots)
      b.id := lotRemOf_nonneg fun l hl => le_of_lt (lt_trans htol (hfin.2 l hl))
  have h0 : buyAllocated st0.inserted b.id = 0 := rfl
  have hrem0 : lotRemOf st0.lots b.id =
      lotRemOf (buildLots table buys) b.id := rfl
  have hbound : lotRemOf (buildLots table buys) b.id ≤
      max 0 (absFloat b.shares - buyAllocated table b.id) := by
    apply lotRemOf_le_of_nodup hgood.1 (le_max_left _ _)
    intro l hl hid
    obtain ⟨r, hr, hid2, _, _, hrem, _⟩ := buildLots_mem_elim hl
    have hrb : r = b := List.inj_on_of_nodup_map hnb2 hr
      (sortByDateId_mem.mpr hb) (by rw [← hid2, hid])
    rw [hrem, hrb]
    exact le_max_right _ _
  rw [h0, hrem0] at hcons
  linarith

theorem matchGroup_cap_sell (bk sec : Nat) (table : List MatchRow)
    (buysRaw sellsRaw : List Transaction)
    (hnb : (buysRaw.map Transaction.id).Nodup)
    (hns : (sellsRaw.map Transaction.id).Nodup) {s : Transaction}
    (hs : s ∈ sellsRaw) :
    0 ≤ sellAllocated (matchGroup bk sec table buysRaw sellsRaw).1 s.id ∧
    sellAllocated (matchGroup bk sec table buysRaw sellsRaw).1 s.id ≤
      max 0 (absFloat s.shares - sellAllocated table s.id) := by
  rw [matchGroup_fst]
  set buys := sortByDateId buysRaw with hbuys
  set sells := sortByDateId sellsRaw with hsells
  have hnb2 : (buys.map Transaction.id).Nodup := sortByDateId_map_nodup hnb
  have hns2 : (sells.map Transaction.id).Nodup := sortByDateId_map_nodup hns
  have hgood := @buildLots_good table _ hnb2
  set st0 : GroupState :=
    { lots := buildLots table buys, inserted := [], unmatched := 0 } with hst0
  have hps := foldSells_per_sell bk sec table sells st0 hgood hns2 s
    (sortByDateId_mem.mpr hs)
  have h0 : sellAllocated st0.inserted s.id = 0 := rfl
  rw [h0] at hps
  by_cases hsk : skipCond table s
  · have hA := hps.1 hsk
    constructor
    · rw [hA]
    · rw [hA]; exact le_max_left _ _
  · obtain ⟨h1, h2, _⟩ := hps.2 hsk
    unfold sellStm0 at h2
    exact ⟨by linarith, le_trans (by linarith) (le_max_right _ _)⟩

theorem matchGroup_new_props (bk sec : Nat) (table : List MatchRow)
    (buysRaw sellsRaw : List Transaction)
    (hnb : (buysRaw.map Transaction.id).Nodup) :
    ∀ m ∈ (matchGroup bk sec table buysRaw sellsRaw).1,
      0 < m.shares ∧ m.buy_transaction_id ∈ buysRaw.map Transaction.id ∧
        m.sell_transaction_id ∈ sellsRaw.map Transaction.id := by
  rw [matchGroup_fst]
  set buys := sortByDateId buysRaw with hbuys
  set sells := sortByDateId sellsRaw with hsells
  have hnb2 : (buys.map Transaction.id).Nodup := sortByDateId_map_nodup hnb
  have hgood := @buildLots_good table _ hnb2
  set st0 : GroupState :=
    { lots := buildLots table buys, inserted := [], unmatched := 0 } with hst0
  obtain ⟨Δ, he, hp⟩ := foldSells_inserted bk sec table sells st0 hgood
  intro m hm
  rw [he] at hm
  have hm2 : m ∈ Δ := by
    have h0 : st0.inserted = [] := rfl
    rw [h0] at hm
    simpa using hm
  obtain ⟨hpos, hbid, hsid⟩ := hp m hm2
  refine ⟨hpos, ?_, ?_⟩
  · have hsub : m.buy_transaction_id ∈ buys.map Transaction.id :=
      (buildLots_ids_sublist table buys).subset hbid
    exact ((sortByDateId_perm buysRaw).map Transaction.id).mem_iff.mp
      (by rw [← hbuys]; exact hsub)
  · exact ((sortByDateId_perm sellsRaw).map Transaction.id).mem_iff.mp
      (by rw [← hsells]; exact hsid)

theorem matchGroup_idem (bk sec : Nat) (table table2 : List MatchRow)
    (buysRaw sellsRaw : List Transaction)
    (hnb : (buysRaw.map Transaction.id).Nodup)
    (hns : (sellsRaw.map Transaction.id).Nodup)
    (hb2 : ∀ b ∈ buysRaw, buyAllocated table2 b.id =
      buyAllocated table b.id +
        buyAllocated (matchGroup bk sec table buysRaw sellsRaw).1 b.id)
    (hs2 : ∀ s2 ∈ sellsRaw, sellAllocated table2 s2.id =
      sellAllocated table s2.id +
        sellAllocated (matchGroup bk sec table buysRaw sellsRaw).1 s2.id) :
    (matchGroup bk sec table2 buysRaw sellsRaw).1 = [] := by
  have htol : (0 : ℚ) < FLOAT_TOLERANCE := by norm_num [FLOAT_TOLERANCE]
  have hnb2 : ((sortByDateId buysRaw).map Transaction.id).Nodup :=
    sortByDateId_map_nodup hnb
  have hns2 : ((sortByDateId sellsRaw).map Transaction.id).Nodup :=
    sortByDateId_map_nodup hns
  have hgood := @buildLots_good table _ hnb2
  set sells := sortByDateId sellsRaw with hsells
  set buys := sortByDateId buysRaw with hbuys
  set st0 : GroupState :=
    { lots := buildLots table buys, inserted := [], unmatched := 0 } with hst0
  set final := sells.foldl (processSell bk sec table) st0 with hfinal
  have hΔ : (matchGroup bk sec table buysRaw sellsRaw).1 = final.inserted := rfl
  obtain ⟨Δ, heΔ, hpΔ⟩ := foldSells_inserted bk sec table sells st0 hgood
  have heΔ2 : final.inserted = Δ := by rw [← hfinal] at heΔ; simpa using heΔ
  by_cases hfl : final.lots = []
  · -- every surviving lot was consumed: the rebuilt queue is empty
    have hempty : buildLots table2 buys = [] := by
      rw [List.eq_nil_iff_forall_not_mem]
      intro l hl
      obtain ⟨r, hr, hid, hdate, hsh, hrem, hgt⟩ := buildLots_mem_elim hl
      have hrRaw : r ∈ buysRaw := sortByDateId_mem.mp hr
      have halloc2 : buyAllocated table2 r.id =
          buyAllocated table r.id + buyAllocated final.inserted r.id := by
        rw [hb2 r hrRaw, hΔ]
      have hΔnn : 0 ≤ buyAllocated final.inserted r.id := by
        rw [heΔ2]
        exact buyAllocated_nonneg fun m hm => le_of_lt (hpΔ m hm).1
      by_cases hrem1 : absFloat r.shares - buyAllocated table r.id ≤ FLOAT_TOLERANCE
      · rw [hrem, halloc2] at hgt
        linarith
      · obtain ⟨d, hd⟩ := Option.ne_none_iff_exists'.mp hdate
        obtain ⟨l0, hl0, hl0id, hl0rem⟩ := buildLots_mem_intro hr hd hsh
          (lt_of_not_le hrem1)
        rcases foldSells_track bk sec table sells st0 hgood l0 hl0 with
          ⟨l2, hl2, _, _⟩ | ⟨_, hres⟩
        · rw [← hfinal] at hl2
          rw [hfl] at hl2
          simp at hl2
        · rw [← hfinal] at hres
          have h00 : buyAllocated st0.inserted l0.tx_id = 0 := rfl
          rw [h00, hl0rem, hl0id] at hres
          rw [hrem, halloc2] at hgt
          linarith
    rw [matchGroup_fst]
    have := foldSells_empty bk sec table2 sells
      { lots := buildLots table2 buys, inserted := [], unmatched := 0 }
      (by rw [hempty])
    rw [this.2]
  · -- the queue survived: every sell is fully matched and skips
    have hskip : ∀ s2 ∈ sells, skipCond table2 s2 := by
      intro s2 hs2m
      have hs2r : s2 ∈ sellsRaw := sortByDateId_mem.mp hs2m
      have hps := foldSells_per_sell bk sec table sells st0 hgood hns2 s2 hs2m
      have h0 : sellAllocated st0.inserted s2.id = 0 := rfl
      rw [h0] at hps
      have halloc2 : sellAllocated table2 s2.id =
          sellAllocated table s2.id + sellAllocated final.inserted s2.id := by
        rw [hs2 s2 hs2r, hΔ]
      by_cases hsk : skipCond table s2
      · rcases hsk with hd | hsh | hstm
        · exact Or.inl hd
        · exact Or.inr (Or.inl hsh)
        · refine Or.inr (Or.inr ?_)
          have hA := hps.1 (Or.inr (Or.inr hstm))
          rw [← hfinal] at hA
          rw [halloc2, hA]
          linarith [hstm]
      · obtain ⟨h1, h2, h3⟩ := hps.2 hsk
        rw [← hfinal] at h1 h2 h3
        rcases h3 with h3 | h3
        · refine Or.inr (Or.inr ?_)
          rw [halloc2]
          unfold sellStm0 at h3
          linarith
        · exact absurd h3 hfl
    rw [matchGroup_fst]
    rw [foldSells_all_skip bk sec table2 sells _ hskip]


/-! ### Grouping lemmas for create_transaction_matches -/

theorem keysInOrder_nodup_aux :
    ∀ (rows : List Transaction) (acc : List (Nat × Nat)), acc.Nodup →
      (rows.foldl
        (fun acc r =>
          if (r.broker_id, r.security_id) ∈ acc then acc
          else acc ++ [(r.broker_id, r.security_id)]) acc).Nodup := by
  intro rows
  induction rows with
  | nil => intro acc h; exact h
  | cons r rest ih =>
    intro acc h
    rw [List.foldl_cons]
    split_ifs with hmem
    · exact ih acc h
    · refine ih _ (List.Nodup.append h (List.nodup_singleton _) ?_)
      intro a ha hb
      rw [List.mem_singleton] at hb
      exact hmem (hb ▸ ha)

theorem keysInOrder_nodup (rows : List Transaction) : (keysInOrder rows).Nodup :=
  keysInOrder_nodup_aux rows [] List.nodup_nil

theorem mem_groupBuys {rows : List Transaction} {key : Nat × Nat}
    {r : Transaction} :
    r ∈ groupBuys rows key ↔
      r ∈ rows ∧ (r.broker_id, r.security_id) = key ∧
        r.transaction_type = "buy" := by
  simp only [groupBuys, groupRows, List.mem_filter, beq_iff_eq,
    decide_eq_true_eq, and_assoc]

theorem mem_groupSells {rows : List Transaction} {key : Nat × Nat}
    {r : Transaction} :
    r ∈ groupSells rows key ↔
      r ∈ rows ∧ (r.broker_id, r.security_id) = key ∧
        r.transaction_type = "sell" := by
  simp only [groupSells, groupRows, List.mem_filter, beq_iff_eq,
    decide_eq_true_eq, and_assoc]

theorem groupBuys_sublist (rows : List Transaction) (key : Nat × Nat) :
    List.Sublist (groupBuys rows key) rows :=
  (List.filter_sublist _).trans (List.filter_sublist _)

theorem groupSells_sublist (rows : List Transaction) (key : Nat × Nat) :
    List.Sublist (groupSells rows key) rows :=
  (List.filter_sublist _).trans (List.filter_sublist _)

theorem groupBuys_ids_nodup {rows : List Transaction}
    (hrid : (rows.map Transaction.id).Nodup) (key : Nat × Nat) :
    ((groupBuys rows key).map Transaction.id).Nodup :=
  List.Nodup.sublist ((groupBuys_sublist rows key).map Transaction.id) hrid

theorem groupSells_ids_nodup {rows : List Transaction}
    (hrid : (rows.map Transaction.id).Nodup) (key : Nat × Nat) :
    ((groupSells rows key).map Transaction.id).Nodup :=
  List.Nodup.sublist ((groupSells_sublist rows key).map Transaction.id) hrid

theorem rows_id_injective {rows : List Transaction}
    (hrid : (rows.map Transaction.id).Nodup) {r1 r2 : Transaction}
    (h1 : r1 ∈ rows) (h2 : r2 ∈ rows) (he : r1.id = r2.id) : r1 = r2 :=
  List.inj_on_of_nodup_map hrid h1 h2 he

theorem buyAllocated_zero_of_other_key {rows : List Transaction}
    (hrid : (rows.map Transaction.id).Nodup) {k : Nat × Nat}
    {ms : List MatchRow}
    (hms : ∀ m ∈ ms, ∃ k2, k2 ≠ k ∧
      m.buy_transaction_id ∈ (groupBuys rows k2).map Transaction.id)
    {b : Transaction} (hb : b ∈ groupBuys rows k) :
    buyAllocated ms b.id = 0 := by
  apply buyAllocated_eq_zero
  intro m hm he
  obtain ⟨k2, hne, hmem⟩ := hms m hm
  obtain ⟨r2, hr2, hr2id⟩ := List.mem_map.mp hmem
  obtain ⟨hr2rows, hr2key, _⟩ := mem_groupBuys.mp hr2
  obtain ⟨hbrows, hbkey, _⟩ := mem_groupBuys.mp hb
  have : r2 = b := rows_id_injective hrid hr2rows hbrows (by rw [hr2id, he])
  exact hne (by rw [← hr2key, this, hbkey])

theorem sellAllocated_zero_of_other_key {rows : List Transaction}
    (hrid : (rows.map Transaction.id).Nodup) {k : Nat × Nat}
    {ms : List MatchRow}
    (hms : ∀ m ∈ ms, ∃ k2, k2 ≠ k ∧
      m.sell_transaction_id ∈ (groupSells rows k2).map Transaction.id)
    {s : Transaction} (hs : s ∈ groupSells rows k) :
    sellAllocated ms s.id = 0 := by
  apply sellAllocated_eq_zero
  intro m hm he
  obtain ⟨k2, hne, hmem⟩ := hms m hm
  obtain ⟨r2, hr2, hr2id⟩ := List.mem_map.mp hmem
  obtain ⟨hr2rows, hr2key, _⟩ := mem_groupSells.mp hr2
  obtain ⟨hsrows, hskey, _⟩ := mem_groupSells.mp hs
  have : r2 = s := rows_id_injective hrid hr2rows hsrows (by rw [hr2id, he])
  exact hne (by rw [← hr2key, this, hskey])


theorem ctm_run_decomp (tE : List MatchRow) (rows : List Transaction)
    (hrid : (rows.map Transaction.id).Nodup) :
    ∀ (keys : List (Nat × Nat)), keys.Nodup → ∀ (acc : List MatchRow × ℚ),
      ∃ Δ : List MatchRow,
        (keys.foldl (ctmStep tE rows) acc).1 = acc.1 ++ Δ ∧
        (∀ m ∈ Δ, ∃ k ∈ keys,
          m.buy_transaction_id ∈ (groupBuys rows k).map Transaction.id ∧
          m.sell_transaction_id ∈ (groupSells rows k).map Transaction.id) ∧
        (∀ k ∈ keys, ∃ T : List MatchRow,
          (∀ b ∈ groupBuys rows k,
            buyAllocated T b.id = buyAllocated (tE ++ acc.1) b.id) ∧
          (∀ s ∈ groupSells rows k,
            sellAllocated T s.id = sellAllocated (tE ++ acc.1) s.id) ∧
          (∀ b ∈ groupBuys rows k,
            buyAllocated (tE ++ (acc.1 ++ Δ)) b.id = buyAllocated T b.id +
              buyAllocated
                (matchGroup k.1 k.2 T (groupBuys rows k) (groupSells rows k)).1
                b.id) ∧
          (∀ s ∈ groupSells rows k,
            sellAllocated (tE ++ (acc.1 ++ Δ)) s.id = sellAllocated T s.id +
              sellAllocated
                (matchGroup k.1 k.2 T (groupBuys rows k) (groupSells rows k)).1
                s.id) ∧
          (∀ b ∈ groupBuys rows k,
            buyAllocated Δ b.id = buyAllocated
              (matchGroup k.1 k.2 T (groupBuys rows k) (groupSells rows k)).1
              b.id) ∧
          (∀ s ∈ groupSells rows k,
            sellAllocated Δ s.id = sellAllocated
              (matchGroup k.1 k.2 T (groupBuys rows k) (groupSells rows k)).1
              s.id)) := by
  intro keys
  induction keys with
  | nil =>
    intro _ acc
    exact ⟨[], by simp, by simp, by simp⟩
  | cons k0 ks ih =>
    intro hnd acc
    have hk0 : k0 ∉ ks := (List.nodup_cons.mp hnd).1
    have hksnd : ks.Nodup := (List.nodup_cons.mp hnd).2
    set n0 := (matchGroup k0.1 k0.2 (tE ++ acc.1)
      (groupBuys rows k0) (groupSells rows k0)).1 with hn0
    have hn0props := matchGroup_new_props k0.1 k0.2 (tE ++ acc.1)
      (groupBuys rows k0) (groupSells rows k0) (groupBuys_ids_nodup hrid k0)
    have hstep1 : (ctmStep tE rows acc k0).1 = acc.1 ++ n0 := rfl
    obtain ⟨Δ2, he2, hscope2, hkeys2⟩ := ih hksnd (ctmStep tE rows acc k0)
    have hn0zero_buy : ∀ {k : Nat × Nat}, k ≠ k0 →
        ∀ b ∈ groupBuys rows k, buyAllocated n0 b.id = 0 := by
      intro k hkne b hb
      exact buyAllocated_zero_of_other_key hrid
        (fun m hm => ⟨k0, fun he => hkne he.symm, (hn0props m hm).2.1⟩) hb
    have hn0zero_sell : ∀ {k : Nat × Nat}, k ≠ k0 →
        ∀ s ∈ groupSells rows k, sellAllocated n0 s.id = 0 := by
      intro k hkne s hs
      exact sellAllocated_zero_of_other_key hrid
        (fun m hm => ⟨k0, fun he => hkne he.symm, (hn0props m hm).2.2⟩) hs
    have hΔ2zero_buy : ∀ b ∈ groupBuys rows k0, buyAllocated Δ2 b.id = 0 := by
      intro b hb
      refine buyAllocated_zero_of_other_key hrid (fun m hm => ?_) hb
      obtain ⟨k2, hk2, hbuy, _⟩ := hscope2 m hm
      exact ⟨k2, fun he => hk0 (he ▸ hk2), hbuy⟩
    have hΔ2zero_sell : ∀ s ∈ groupSells rows k0, sellAllocated Δ2 s.id = 0 := by
      intro s hs
      refine sellAllocated_zero_of_other_key hrid (fun m hm => ?_) hs
      obtain ⟨k2, hk2, _, hsell⟩ := hscope2 m hm
      exact ⟨k2, fun he => hk0 (he ▸ hk2), hsell⟩
    refine ⟨n0 ++ Δ2, ?_, ?_, ?_⟩
    · rw [List.foldl_cons, he2, hstep1, List.append_assoc]
    · intro m hm
      rcases List.mem_append.mp hm with hm0 | hm2
      · exact ⟨k0, List.mem_cons_self _ _, (hn0props m hm0).2.1,
          (hn0props m hm0).2.2⟩
      · obtain ⟨k2, hk2, hb, hs⟩ := hscope2 m hm2
        exact ⟨k2, List.mem_cons_of_mem _ hk2, hb, hs⟩
    · intro k hk
      rcases List.mem_cons.mp hk with rfl | hkmem
      · -- the key processed at this step
        refine ⟨tE ++ acc.1, fun b _ => rfl, fun s _ => rfl, ?_, ?_, ?_, ?_⟩
        · intro b hb
          rw [buyAllocated_append, buyAllocated_append, buyAllocated_append,
            buyAllocated_append, hΔ2zero_buy b hb, ← hn0]
          ring
        · intro s hs
          rw [sellAllocated_append, sellAllocated_append, sellAllocated_append,
            sellAllocated_append, hΔ2zero_sell s hs, ← hn0]
          ring
        · intro b hb
          rw [buyAllocated_append, hΔ2zero_buy b hb, ← hn0]
          ring
        · intro s hs
          rw [sellAllocated_append, hΔ2zero_sell s hs, ← hn0]
          ring
      · -- a key processed later
        obtain ⟨T, hTb, hTs, h2b, h2s, hΔb, hΔs⟩ := hkeys2 k hkmem
        have hkne : k ≠ k0 := fun he => hk0 (he ▸ hkmem)
        have hassoc : tE ++ ((ctmStep tE rows acc k0).1 ++ Δ2) =
            tE ++ (acc.1 ++ (n0 ++ Δ2)) := by
          rw [hstep1, List.append_assoc]
        refine ⟨T, ?_, ?_, ?_, ?_, ?_, ?_⟩
        · intro b hb
          rw [hTb b hb, hstep1, buyAllocated_append, buyAllocated_append,
            buyAllocated_append, hn0zero_buy hkne b hb]
          ring
        · intro s hs
          rw [hTs s hs, hstep1, sellAllocated_append, sellAllocated_append,
            sellAllocated_append, hn0zero_sell hkne s hs]
          ring
        · intro b hb
          rw [← hassoc]
          exact h2b b hb
        · intro s hs
          rw [← hassoc]
          exact h2s s hs
        · intro b hb
          rw [buyAllocated_append, hn0zero_buy hkne b hb, hΔb b hb]
          ring
        · intro s hs
          rw [sellAllocated_append, hn0zero_sell hkne s hs, hΔs s hs]
          ring


theorem create_transaction_matches_false_eq (transactions : List Transaction)
    (existing : List MatchRow) :
    create_transaction_matches transactions existing false =
      (keysInOrder (ctmRows transactions)).foldl
        (ctmStep existing (ctmRows transactions)) ([], 0) := rfl

theorem ctm_foldl_empty_of_groups (tE2 : List MatchRow) (rows : List Transaction) :
    ∀ (keys : List (Nat × Nat)),
      (∀ k ∈ keys, (matchGroup k.1 k.2 tE2
        (groupBuys rows k) (groupSells rows k)).1 = []) →
      ∀ (acc : List MatchRow × ℚ), acc.1 = [] →
        (keys.foldl (ctmStep tE2 rows) acc).1 = [] := by
  intro keys
  induction keys with
  | nil => intro _ acc h; exact h
  | cons k ks ih =>
    intro hk acc hacc
    rw [List.foldl_cons]
    apply ih (fun k2 hk2 => hk k2 (List.mem_cons_of_mem _ hk2))
    show acc.1 ++ (matchGroup k.1 k.2 (tE2 ++ acc.1)
      (groupBuys rows k) (groupSells rows k)).1 = []
    rw [hacc, List.append_nil, hk k (List.mem_cons_self _ _)]
    rfl

theorem keysInOrder_mono :
    ∀ (rows : List Transaction) (acc : List (Nat × Nat)) (k : Nat × Nat),
      k ∈ acc →
      k ∈ rows.foldl
        (fun acc r =>
          if (r.broker_id, r.security_id) ∈ acc then acc
          else acc ++ [(r.broker_id, r.security_id)]) acc := by
  intro rows
  induction rows with
  | nil => intro acc k h; exact h
  | cons r rest ih =>
    intro acc k h
    rw [List.foldl_cons]
    split_ifs with hmem
    · exact ih acc k h
    · exact ih _ k (List.mem_append_left _ h)

theorem keysInOrder_complete :
    ∀ (rows : List Transaction) (acc : List (Nat × Nat)) (r : Transaction),
      r ∈ rows →
      (r.broker_id, r.security_id) ∈ rows.foldl
        (fun acc r =>
          if (r.broker_id, r.security_id) ∈ acc then acc
          else acc ++ [(r.broker_id, r.security_id)]) acc := by
  intro rows
  induction rows with
  | nil => intro acc r h; simp at h
  | cons r0 rest ih =>
    intro acc r h
    rcases List.mem_cons.mp h with rfl | hmem
    · rw [List.foldl_cons]
      split_ifs with hmem0
      · exact keysInOrder_mono rest acc _ hmem0
      · exact keysInOrder_mono rest _ _ (List.mem_append_right _ (List.mem_singleton.mpr rfl))
    · rw [List.foldl_cons]
      split_ifs with hmem0 <;> exact ih _ r hmem

theorem mem_keysInOrder_of_mem_rows {rows : List Transaction} {r : Transaction}
    (h : r ∈ rows) : (r.broker_id, r.security_id) ∈ keysInOrder rows :=
  keysInOrder_complete rows [] r h

theorem mem_ctmRows_buy {transactions : List Transaction} {t : Transaction}
    (ht : t ∈ transactions) (htype : t.transaction_type = "buy")
    (hd : t.transaction_date.isSome) : t ∈ ctmRows transactions := by
  unfold ctmRows
  rw [List.mem_filter]
  refine ⟨ht, ?_⟩
  rw [htype]
  simp [hd]

theorem mem_ctmRows_sell {transactions : List Transaction} {t : Transaction}
    (ht : t ∈ transactions) (htype : t.transaction_type = "sell")
    (hd : t.transaction_date.isSome) : t ∈ ctmRows transactions := by
  unfold ctmRows
  rw [List.mem_filter]
  refine ⟨ht, ?_⟩
  rw [htype]
  simp [hd]

theorem create_transaction_matches_idem (transactions : List Transaction)
    (existing : List MatchRow)
    (hid : (transactions.map Transaction.id).Nodup) :
    (create_transaction_matches transactions
      (existing ++ (create_transaction_matches transactions existing false).1)
      false).1 = [] := by
  have hrid : ((ctmRows transactions).map Transaction.id).Nodup :=
    List.Nodup.sublist ((List.filter_sublist _).map Transaction.id) hid
  obtain ⟨Δ, heΔ, hscope, hkeysfacts⟩ := ctm_run_decomp existing
    (ctmRows transactions) hrid (keysInOrder (ctmRows transactions))
    (keysInOrder_nodup _) ([], 0)
  have hrun1 : (create_transaction_matches transactions existing false).1 = Δ := by
    rw [create_transaction_matches_false_eq, heΔ]
    rfl
  rw [create_transaction_matches_false_eq]
  apply ctm_foldl_empty_of_groups _ _ _ _ ([], 0) rfl
  intro k hk
  obtain ⟨T, hTb, hTs, h2b, h2s, _, _⟩ := hkeysfacts k hk
  rw [hrun1]
  apply matchGroup_idem k.1 k.2 T (existing ++ Δ) _ _
    (groupBuys_ids_nodup hrid k) (groupSells_ids_nodup hrid k)
  · intro b hb
    have := h2b b hb
    simpa using this
  · intro s2 hs2
    have := h2s s2 hs2
    simpa using this

theorem create_transaction_matches_cap (transactions : List Transaction)
    (existing : List MatchRow)
    (hid : (transactions.map Transaction.id).Nodup)
    (hbuy : ∀ t ∈ transactions, t.transaction_type = "buy" →
      buyAllocated existing t.id ≤ absFloat t.shares)
    (hsell : ∀ t ∈ transactions, t.transaction_type = "sell" →
      sellAllocated existing t.id ≤ absFloat t.shares) :
    (∀ t ∈ transactions, t.transaction_type = "buy" →
      buyAllocated
        (existing ++ (create_transaction_matches transactions existing false).1)
        t.id ≤ absFloat t.shares) ∧
    (∀ t ∈ transactions, t.transaction_type = "sell" →
      sellAllocated
        (existing ++ (create_transaction_matches transactions existing false).1)
        t.id ≤ absFloat t.shares) := by
  have hrid : ((ctmRows transactions).map Transaction.id).Nodup :=
    List.Nodup.sublist ((List.filter_sublist _).map Transaction.id) hid
  obtain ⟨Δ, heΔ, hscope, hkeysfacts⟩ := ctm_run_decomp existing
    (ctmRows transactions) hrid (keysInOrder (ctmRows transactions))
    (keysInOrder_nodup _) ([], 0)
  have hrun1 : (create_transaction_matches transactions existing false).1 = Δ := by
    rw [create_transaction_matches_false_eq, heΔ]
    rfl
  have hnotrow : ∀ t ∈ transactions, t ∉ ctmRows transactions →
      buyAllocated Δ t.id = 0 ∧ sellAllocated Δ t.id = 0 := by
    intro t ht htnr
    constructor
    · apply buyAllocated_eq_zero
      intro m hm he
      obtain ⟨k, _, hbm, _⟩ := hscope m hm
      obtain ⟨r, hr, hrid2⟩ := List.mem_map.mp hbm
      have hrrows := (mem_groupBuys.mp hr).1
      have hrt : r = t := rows_id_injective hid
        ((List.filter_sublist _).subset hrrows) ht (by rw [hrid2, he])
      exact htnr (hrt ▸ hrrows)
    · apply sellAllocated_eq_zero
      intro m hm he
      obtain ⟨k, _, _, hsm⟩ := hscope m hm
      obtain ⟨r, hr, hrid2⟩ := List.mem_map.mp hsm
      have hrrows := (mem_groupSells.mp hr).1
      have hrt : r = t := rows_id_injective hid
        ((List.filter_sublist _).subset hrrows) ht (by rw [hrid2, he])
      exact htnr (hrt ▸ hrrows)
  constructor
  · intro t ht htype
    rw [hrun1, buyAllocated_append]
    by_cases hd : t.transaction_date.isSome
    · have htr : t ∈ ctmRows transactions := mem_ctmRows_buy ht htype hd
      have htg : t ∈ groupBuys (ctmRows transactions) (t.broker_id, t.security_id) :=
        mem_groupBuys.mpr ⟨htr, rfl, htype⟩
      obtain ⟨T, hTb, _, _, _, hΔb, _⟩ := hkeysfacts (t.broker_id, t.security_id)
        (mem_keysInOrder_of_mem_rows htr)
      have hTe : buyAllocated T t.id = buyAllocated existing t.id := by
        have := hTb t htg
        simpa using this
      have hcap := matchGroup_cap_buy (t.broker_id) (t.security_id) T
        (groupBuys (ctmRows transactions) (t.broker_id, t.security_id))
        (groupSells (ctmRows transactions) (t.broker_id, t.security_id))
        (groupBuys_ids_nodup hrid _) htg
      rw [← hΔb t htg, hTe] at hcap
      have hE := hbuy t ht htype
      rcases max_choice 0 (absFloat t.shares - buyAllocated existing t.id) with
        hmx | hmx <;> rw [hmx] at hcap <;> linarith
    · have htnr : t ∉ ctmRows transactions := by
        intro hc
        unfold ctmRows at hc
        rw [List.mem_filter] at hc
        rcases hc with ⟨_, hpred⟩
        rw [Bool.and_eq_true] at hpred
        exact hd (by simpa using hpred.2)
      rw [(hnotrow t ht htnr).1]
      have := hbuy t ht htype
      linarith
  · intro t ht htype
    rw [hrun1, sellAllocated_append]
    by_cases hd : t.transaction_date.isSome
    · have htr : t ∈ ctmRows transactions := mem_ctmRows_sell ht htype hd
      have htg : t ∈ groupSells (ctmRows transactions) (t.broker_id, t.security_id) :=
        mem_groupSells.mpr ⟨htr, rfl, htype⟩
      obtain ⟨T, _, hTs, _, _, _, hΔs⟩ := hkeysfacts (t.broker_id, t.security_id)
        (mem_keysInOrder_of_mem_rows htr)
      have hTe : sellAllocated T t.id = sellAllocated existing t.id := by
        have := hTs t htg
        simpa using this
      have hcap := (matchGroup_cap_sell (t.broker_id) (t.security_id) T
        (groupBuys (ctmRows transactions) (t.broker_id, t.security_id))
        (groupSells (ctmRows transactions) (t.broker_id, t.security_id))
        (groupBuys_ids_nodup hrid _) (groupSells_ids_nodup hrid _) htg).2
      rw [← hΔs t htg, hTe] at hcap
      have hE := hsell t ht htype
      rcases max_choice 0 (absFloat t.shares - sellAllocated existing t.id) with
        hmx | hmx <;> rw [hmx] at hcap <;> linarith
    · have htnr : t ∉ ctmRows transactions := by
        intro hc
        unfold ctmRows at hc
        rw [List.mem_filter] at hc
        rcases hc with ⟨_, hpred⟩
        rw [Bool.and_eq_true] at hpred
        exact hd (by simpa using hpred.2)
      rw [(hnotrow t ht htnr).2]
      have := hsell t ht htype
      linarith


/-! ### Dividend-allocator lemmas -/

theorem addToBucket_ids (bs : List AllocBucket) (bid : Nat) (sh amt : ℚ) :
    (addToBucket bs bid sh amt).map AllocBucket.buy_id =
      if bs.any fun b => b.buy_id == bid then bs.map AllocBucket.buy_id
      else bs.map AllocBucket.buy_id ++ [bid] := by
  unfold addToBucket
  split_ifs with h
  · rw [List.map_map]
    apply List.map_congr_left
    intro b _
    simp only [Function.comp_apply]
    split_ifs <;> rfl
  · simp

theorem addToBucket_nodup {bs : List AllocBucket} {bid : Nat} {sh amt : ℚ}
    (h : (bs.map AllocBucket.buy_id).Nodup) :
    ((addToBucket bs bid sh amt).map AllocBucket.buy_id).Nodup := by
  rw [addToBucket_ids]
  split_ifs with hany
  · exact h
  · have hni : bid ∉ bs.map AllocBucket.buy_id := by
      intro hmem
      obtain ⟨b, hb, he⟩ := List.mem_map.mp hmem
      exact hany (List.any_eq_true.mpr ⟨b, hb, by simp [he]⟩)
    exact List.Nodup.append h (List.nodup_singleton bid)
      (by simpa [List.disjoint_singleton] using hni)

theorem map_update_eq_self {bs : List AllocBucket} {bid : Nat} {sh amt : ℚ}
    (h : ∀ b ∈ bs, b.buy_id ≠ bid) :
    (bs.map fun b =>
      if b.buy_id == bid then
        { b with shares := b.shares + sh, amount := b.amount + amt }
      else b) = bs := by
  induction bs with
  | nil => rfl
  | cons b rest ih =>
    rw [List.map_cons, if_neg (by simpa using h b (List.mem_cons_self b rest)),
      ih fun x hx => h x (List.mem_cons_of_mem b hx)]

theorem addToBucket_sum {bs : List AllocBucket} {bid : Nat} {sh amt : ℚ}
    (h : (bs.map AllocBucket.buy_id).Nodup) :
    bucketAmountSum (addToBucket bs bid sh amt) = bucketAmountSum bs + amt := by
  induction bs with
  | nil => simp [addToBucket, bucketAmountSum]
  | cons b rest ih =>
    have hnr : (rest.map AllocBucket.buy_id).Nodup :=
      (List.nodup_cons.mp h).2
    have hbn : b.buy_id ∉ rest.map AllocBucket.buy_id :=
      (List.nodup_cons.mp h).1
    unfold addToBucket
    by_cases hb : b.buy_id = bid
    · rw [if_pos (List.any_eq_true.mpr
        ⟨b, List.mem_cons_self b rest, by simp [hb]⟩)]
      rw [List.map_cons, if_pos (by simp [hb])]
      have hrest : (rest.map fun x =>
          if x.buy_id == bid then
            { x with shares := x.shares + sh, amount := x.amount + amt }
          else x) = rest :=
        map_update_eq_self fun x hx he =>
          hbn (hb ▸ he ▸ List.mem_map.mpr ⟨x, hx, rfl⟩)
      rw [hrest]
      simp only [bucketAmountSum, List.map_cons, List.sum_cons]
      ring
    · have hany : ((b :: rest).any fun x => x.buy_id == bid) =
          (rest.any fun x => x.buy_id == bid) := by
        simp [List.any_cons, hb]
      by_cases hrany : (rest.any fun x => x.buy_id == bid) = true
      · rw [if_pos (by rw [hany]; exact hrany)]
        rw [List.map_cons, if_neg (by simp [hb])]
        have := ih hnr
        unfold addToBucket at this
        rw [if_pos hrany] at this
        simp only [bucketAmountSum, List.map_cons, List.sum_cons] at this ⊢
        linarith
      · rw [if_neg (by rw [hany]; exact hrany)]
        simp only [bucketAmountSum, List.map_append, List.map_cons,
          List.sum_append, List.sum_cons, List.map_nil, List.sum_nil]
        ring

theorem alloc_walk_sum (ds p : ℚ) :
    ∀ (segs : List HoldingSegment) (st : WalkState),
      (st.buckets.map AllocBucket.buy_id).Nodup →
      ((alloc_walk ds p st segs).buckets.map AllocBucket.buy_id).Nodup ∧
        bucketAmountSum (alloc_walk ds p st segs).buckets -
            (alloc_walk ds p st segs).distributed =
          bucketAmountSum st.buckets - st.distributed := by
  intro segs
  induction segs with
  | nil => intro st h; exact ⟨h, by simp [alloc_walk]⟩
  | cons seg rest ih =>
    intro st h
    set stu := if FLOAT_TOLERANCE < ds then min seg.shares st.shares_left
      else seg.shares with hstu
    simp only [alloc_walk]
    rw [← hstu]
    by_cases h1 : FLOAT_TOLERANCE < ds ∧ st.shares_left ≤ FLOAT_TOLERANCE
    · rw [if_pos h1]
      exact ⟨h, rfl⟩
    · rw [if_neg h1]
      by_cases h2 : stu ≤ FLOAT_TOLERANCE
      · rw [if_pos h2]
        exact ih st h
      · rw [if_neg h2]
        obtain ⟨hn2, he2⟩ := ih
          { shares_left := st.shares_left - stu
            distributed := st.distributed + stu * p
            buckets := addToBucket st.buckets seg.buy_transaction_id
              stu (stu * p) } (addToBucket_nodup h)
        refine ⟨hn2, ?_⟩
        rw [he2]
        show bucketAmountSum (addToBucket st.buckets seg.buy_transaction_id
            stu (stu * p)) - (st.distributed + stu * p) = _
        rw [addToBucket_sum h]
        ring

theorem alloc_walk_ids_from (ds p : ℚ) :
    ∀ (segs : List HoldingSegment) (st : WalkState) (bid : Nat),
      bid ∈ (alloc_walk ds p st segs).buckets.map AllocBucket.buy_id →
      bid ∈ st.buckets.map AllocBucket.buy_id ∨
        bid ∈ segs.map HoldingSegment.buy_transaction_id := by
  intro segs
  induction segs with
  | nil => intro st bid h; exact Or.inl h
  | cons seg rest ih =>
    intro st bid h
    set stu := if FLOAT_TOLERANCE < ds then min seg.shares st.shares_left
      else seg.shares with hstu
    simp only [alloc_walk] at h
    rw [← hstu] at h
    by_cases h1 : FLOAT_TOLERANCE < ds ∧ st.shares_left ≤ FLOAT_TOLERANCE
    · rw [if_pos h1] at h
      exact Or.inl h
    · rw [if_neg h1] at h
      by_cases h2 : stu ≤ FLOAT_TOLERANCE
      · rw [if_pos h2] at h
        rcases ih st bid h with h3 | h3
        · exact Or.inl h3
        · exact Or.inr (List.mem_cons_of_mem _ h3)
      · rw [if_neg h2] at h
        rcases ih _ bid h with h3 | h3
        · rw [addToBucket_ids] at h3
          split_ifs at h3 with h4
          · exact Or.inl h3
          · rcases List.mem_append.mp h3 with h5 | h5
            · exact Or.inl h5
            · exact Or.inr (by
                simp only [List.mem_singleton] at h5
                exact h5 ▸ List.mem_cons_self _ _)
        · exact Or.inr (List.mem_cons_of_mem _ h3)

theorem alloc_walk_full (ds p : ℚ) (hds : ds ≤ FLOAT_TOLERANCE) :
    ∀ (segs : List HoldingSegment) (st : WalkState),
      (∀ seg ∈ segs, FLOAT_TOLERANCE < seg.shares) →
      (alloc_walk ds p st segs).distributed =
          st.distributed + (segs.map HoldingSegment.shares).sum * p ∧
        (alloc_walk ds p st segs).shares_left =
          st.shares_left - (segs.map HoldingSegment.shares).sum := by
  intro segs
  induction segs with
  | nil => intro st _; constructor <;> simp [alloc_walk]
  | cons seg rest ih =>
    intro st hpos
    have hseg := hpos seg (List.mem_cons_self seg rest)
    simp only [alloc_walk]
    rw [if_neg (by intro hc; linarith [hc.1]), if_neg (by
      rw [if_neg (by intro hc; linarith)]
      linarith)]
    rw [if_neg (by intro hc; linarith)]
    obtain ⟨h1, h2⟩ := ih
      { shares_left := st.shares_left - seg.shares
        distributed := st.distributed + seg.shares * p
        buckets := addToBucket st.buckets seg.buy_transaction_id
          seg.shares (seg.shares * p) }
      fun x hx => hpos x (List.mem_cons_of_mem seg hx)
    rw [h1, h2]
    simp only [List.map_cons, List.sum_cons]
    constructor <;> ring

theorem alloc_walk_invariant (ds p : ℚ) :
    ∀ (segs : List HoldingSegment) (st : WalkState),
      (alloc_walk ds p st segs).distributed +
          (alloc_walk ds p st segs).shares_left * p =
        st.distributed + st.shares_left * p := by
  intro segs
  induction segs with
  | nil => intro st; rfl
  | cons seg rest ih =>
    intro st
    set stu := if FLOAT_TOLERANCE < ds then min seg.shares st.shares_left
      else seg.shares with hstu
    simp only [alloc_walk]
    rw [← hstu]
    by_cases h1 : FLOAT_TOLERANCE < ds ∧ st.shares_left ≤ FLOAT_TOLERANCE
    · rw [if_pos h1]
    · rw [if_neg h1]
      by_cases h2 : stu ≤ FLOAT_TOLERANCE
      · rw [if_pos h2]
        exact ih st
      · rw [if_neg h2]
        rw [ih { shares_left := st.shares_left - stu
                 distributed := st.distributed + stu * p
                 buckets := addToBucket st.buckets seg.buy_transaction_id
                   stu (stu * p) }]
        dsimp only
        ring

theorem alloc_walk_exact (p : ℚ) :
    ∀ (segs : List HoldingSegment) (st : WalkState),
      (∀ seg ∈ segs, FLOAT_TOLERANCE < seg.shares) →
      (segs.map HoldingSegment.buy_transaction_id).Nodup →
      (∀ seg ∈ segs,
        seg.buy_transaction_id ∉ st.buckets.map AllocBucket.buy_id) →
      (alloc_walk 0 p st segs).buckets =
        st.buckets ++ segs.map fun seg =>
          { buy_id := seg.buy_transaction_id, shares := seg.shares
            amount := seg.shares * p } := by
  intro segs
  induction segs with
  | nil => intro st _ _ _; simp [alloc_walk]
  | cons seg rest ih =>
    intro st hpos hnd hfresh
    have hseg := hpos seg (List.mem_cons_self seg rest)
    have htol : (0 : ℚ) < FLOAT_TOLERANCE := by norm_num [FLOAT_TOLERANCE]
    have hadd : addToBucket st.buckets seg.buy_transaction_id seg.shares
        (seg.shares * p) = st.buckets ++
          [({ buy_id := seg.buy_transaction_id, shares := seg.shares,
              amount := seg.shares * p } : AllocBucket)] := by
      unfold addToBucket
      rw [if_neg]
      intro hc
      obtain ⟨b, hb, he⟩ := List.any_eq_true.mp hc
      exact hfresh seg (List.mem_cons_self seg rest)
        (List.mem_map.mpr ⟨b, hb, by simpa using he⟩)
    have hfresh2 : ∀ x ∈ rest, x.buy_transaction_id ∉
        (addToBucket st.buckets seg.buy_transaction_id seg.shares
          (seg.shares * p)).map AllocBucket.buy_id := by
      intro x hx hc
      rw [hadd, List.map_append] at hc
      rcases List.mem_append.mp hc with h5 | h5
      · exact hfresh x (List.mem_cons_of_mem seg hx) h5
      · have hxe : x.buy_transaction_id = seg.buy_transaction_id := by
          simpa using h5
        exact (List.nodup_cons.mp hnd).1 (hxe ▸ List.mem_map.mpr ⟨x, hx, rfl⟩)
    simp only [alloc_walk]
    rw [if_neg (by intro hc; exact absurd hc.1 (by linarith)),
      if_neg (by
        rw [if_neg (by intro hc; linarith)]
        linarith),
      if_neg (by intro hc; linarith)]
    rw [ih _ (fun x hx => hpos x (List.mem_cons_of_mem seg hx))
      (List.nodup_cons.mp hnd).2 hfresh2]
    dsimp only
    rw [hadd, List.append_assoc]
    rfl

theorem add_remainder_sum :
    ∀ (bs : List AllocBucket) (r : ℚ), bs ≠ [] →
      bucketAmountSum (add_remainder_to_last r bs) = bucketAmountSum bs + r := by
  intro bs
  induction bs with
  | nil => intro r h; exact absurd rfl h
  | cons b rest ih =>
    intro r _
    cases rest with
    | nil =>
      simp only [add_remainder_to_last, bucketAmountSum, List.map_cons,
        List.map_nil, List.sum_cons, List.sum_nil]
      ring
    | cons c cs =>
      have hstep : add_remainder_to_last r (b :: c :: cs) =
          b :: add_remainder_to_last r (c :: cs) := rfl
      rw [hstep]
      simp only [bucketAmountSum, List.map_cons, List.sum_cons] at ih ⊢
      rw [ih r (by simp)]
      ring

theorem add_remainder_ids :
    ∀ (bs : List AllocBucket) (r : ℚ),
      (add_remainder_to_last r bs).map AllocBucket.buy_id =
        bs.map AllocBucket.buy_id := by
  intro bs
  induction bs with
  | nil => intro r; rfl
  | cons b rest ih =>
    intro r
    cases rest with
    | nil => rfl
    | cons c cs =>
      show List.map _ (b :: add_remainder_to_last r (c :: cs)) = _
      rw [List.map_cons, ih r]
      rfl

theorem add_remainder_map_amount :
    ∀ (bs : List AllocBucket) (r : ℚ),
      (add_remainder_to_last r bs).map AllocBucket.amount =
        add_last_rat r (bs.map AllocBucket.amount) := by
  intro bs
  induction bs with
  | nil => intro r; rfl
  | cons b rest ih =>
    intro r
    cases rest with
    | nil => rfl
    | cons c cs =>
      show List.map _ (b :: add_remainder_to_last r (c :: cs)) = _
      rw [List.map_cons, ih r]
      rfl


theorem mem_eligible_segments {segs : List HoldingSegment} {dd : Nat}
    {pd : Option Nat} {seg : HoldingSegment} :
    seg ∈ eligible_segments segs dd pd ↔
      seg ∈ segs ∧ seg.buy_date < dd ∧
        (seg.sell_date = none ∨
          ∃ sd, seg.sell_date = some sd ∧ (dd ≤ sd ∨ pd.getD dateMin < sd)) := by
  unfold eligible_segments
  rw [List.mem_filter]
  constructor
  · rintro ⟨hmem, hcond⟩
    rw [Bool.and_eq_true, decide_eq_true_eq] at hcond
    refine ⟨hmem, hcond.1, ?_⟩
    rcases hsd : seg.sell_date with _ | sd
    · exact Or.inl rfl
    · right
      refine ⟨sd, rfl, ?_⟩
      have := hcond.2
      rw [hsd] at this
      simpa using this
  · rintro ⟨hmem, hlt, hsell⟩
    refine ⟨hmem, ?_⟩
    rw [Bool.and_eq_true, decide_eq_true_eq]
    refine ⟨hlt, ?_⟩
    rcases hsell with hnone | ⟨sd, hsd, hor⟩
    · rw [hnone]
    · rw [hsd]
      simpa using hor

theorem allocate_buckets_eligible {d : Transaction} {segs : List HoldingSegment}
    {dd : Nat} {pd : Option Nat} {bs : List AllocBucket}
    (h : allocate_for_dividend d segs dd pd = some bs) :
    ∀ b ∈ bs, ∃ seg ∈ eligible_segments segs dd pd,
      b.buy_id = seg.buy_transaction_id := by
  intro b hb
  unfold allocate_for_dividend at h
  dsimp only at h
  split_ifs at h with h1 h2 h3 h4 h5
  · -- remainder branch
    have hbs : bs = add_remainder_to_last
        (coalesce_amount d false - (alloc_walk_result d segs dd pd).distributed)
        (alloc_walk_result d segs dd pd).buckets := (Option.some_injective _ h).symm
    have hid : b.buy_id ∈ (alloc_walk_result d segs dd pd).buckets.map
        AllocBucket.buy_id := by
      rw [← add_remainder_ids _ (coalesce_amount d false -
        (alloc_walk_result d segs dd pd).distributed), ← hbs]
      exact List.mem_map.mpr ⟨b, hb, rfl⟩
    rcases alloc_walk_ids_from _ _ _ _ _ hid with h6 | h6
    · simp at h6
    · obtain ⟨seg, hseg, he⟩ := List.mem_map.mp h6
      exact ⟨seg, hseg, he.symm⟩
  · -- plain branch
    have hbs : bs = (alloc_walk_result d segs dd pd).buckets :=
      (Option.some_injective _ h).symm
    have hid : b.buy_id ∈ (alloc_walk_result d segs dd pd).buckets.map
        AllocBucket.buy_id := by
      rw [← hbs]
      exact List.mem_map.mpr ⟨b, hb, rfl⟩
    rcases alloc_walk_ids_from _ _ _ _ _ hid with h6 | h6
    · simp at h6
    · obtain ⟨seg, hseg, he⟩ := List.mem_map.mp h6
      exact ⟨seg, hseg, he.symm⟩

theorem agg_walk_exact (p : ℚ) :
    ∀ (shs : List ℚ) (L : ℚ), (∀ sh ∈ shs, 0 < sh) → shs.sum = L →
      agg_walk p L shs = (shs.map fun sh => sh * p, 0, L * p) := by
  intro shs
  induction shs with
  | nil =>
    intro L _ hL
    rw [← hL]
    simp [agg_walk]
  | cons sh rest ih =>
    intro L hpos hL
    have hsh := hpos sh (List.mem_cons_self sh rest)
    have hrest : 0 ≤ rest.sum :=
      List.sum_nonneg fun x hx => le_of_lt (hpos x (List.mem_cons_of_mem sh hx))
    rw [List.sum_cons] at hL
    have hLpos : 0 < L := by linarith
    simp only [agg_walk]
    rw [if_neg (by linarith), if_neg (by linarith)]
    have hmin : min sh L = sh := min_eq_left (by linarith)
    rw [hmin, ih (L - sh) (fun x hx => hpos x (List.mem_cons_of_mem sh hx))
      (by linarith)]
    dsimp only
    rw [show (L - sh) * p + sh * p = L * p from by ring, List.map_cons]

theorem sell_loop_fifo (ctx : SellCtx) :
    ∀ (lots : List BuyLot) (stm : ℚ) (i : Nat),
      i < (sell_loop ctx stm lots).1.length →
      ((sell_loop ctx stm lots).1.map MatchRow.buy_transaction_id).getD i 0 =
          (lotIds lots).getD i 0 ∧
        ((sell_loop ctx stm lots).1.map MatchRow.shares).getD i 0 =
          min (stm - matchShares ((sell_loop ctx stm lots).1.take i))
            ((lots.map BuyLot.shares_remaining).getD i 0) ∧
        (i + 1 < (sell_loop ctx stm lots).1.length →
          (lots.map BuyLot.shares_remaining).getD i 0 -
            ((sell_loop ctx stm lots).1.map MatchRow.shares).getD i 0 ≤
              FLOAT_TOLERANCE) := by
  intro lots
  induction lots with
  | nil => intro stm i hi; simp [sell_loop] at hi
  | cons lot rest ih =>
    intro stm i hi
    simp only [sell_loop] at hi ⊢
    split_ifs at hi ⊢ with h1 h2
    · simp at hi
    · cases i with
      | zero =>
        refine ⟨by simp [lotIds], by simp [matchShares], ?_⟩
        intro _
        simpa using h2
      | succ j =>
        have hj : j <
            (sell_loop ctx (stm - min stm lot.shares_remaining) rest).1.length := by
          simpa using hi
        obtain ⟨ha, hb, hc⟩ := ih (stm - min stm lot.shares_remaining) j hj
        refine ⟨?_, ?_, ?_⟩
        · simpa [lotIds] using ha
        · simp only [List.map_cons, List.getD_cons_succ, List.take_succ_cons,
            matchShares, List.sum_cons] at hb ⊢
          rw [hb]
          congr 1
          ring
        · intro hsucc
          simp only [List.map_cons, List.getD_cons_succ, List.length_cons] at hsucc ⊢
          exact hc (by omega)
    · cases i with
      | zero =>
        refine ⟨by simp [lotIds], by simp [matchShares], ?_⟩
        intro hcc
        simp at hcc
      | succ j =>
        simp at hi


/-! ### XIRR round-trip analysis (claim C8) -/

theorem tf8_eq : tf8 = [((0:ℝ), (-1000:ℝ)), ((1460:ℝ)/1461, 1100)] := by
  norm_num [tf8, cashflows8, xirr_timed_flows]

theorem npv8_def (r : ℝ) : npv_at tf8 r = npv8 r := rfl

theorem npv8_eq (r : ℝ) (h0 : 0 < 1 + r) :
    npv8 r = -1000 + 1100 / (1 + r) ^ ((1460:ℝ)/1461) := by
  rw [npv8, tf8_eq]
  simp [npv_at, h0, Real.rpow_zero]

theorem pow_bridge_le {x y : ℝ} (hx : 0 ≤ x) (hy : 0 ≤ y) :
    x ^ ((1460:ℝ)/1461) ≤ y ↔ x ^ (1460:ℕ) ≤ y ^ (1461:ℕ) := by
  rw [← pow_le_pow_iff_left (Real.rpow_nonneg hx _) hy
    (by norm_num : (1461:ℕ) ≠ 0),
    ← Real.rpow_natCast (x ^ ((1460:ℝ)/1461)) 1461, ← Real.rpow_mul hx,
    show ((1460:ℝ)/1461) * ((1461:ℕ):ℝ) = ((1460:ℕ):ℝ) by push_cast; ring,
    Real.rpow_natCast]

theorem pow_bridge_ge {x y : ℝ} (hx : 0 ≤ x) (hy : 0 ≤ y) :
    y ≤ x ^ ((1460:ℝ)/1461) ↔ y ^ (1461:ℕ) ≤ x ^ (1460:ℕ) := by
  rw [← pow_le_pow_iff_left hy (Real.rpow_nonneg hx _)
    (by norm_num : (1461:ℕ) ≠ 0),
    ← Real.rpow_natCast (x ^ ((1460:ℝ)/1461)) 1461, ← Real.rpow_mul hx,
    show ((1460:ℝ)/1461) * ((1461:ℕ):ℝ) = ((1460:ℕ):ℝ) by push_cast; ring,
    Real.rpow_natCast]


theorem npv8_strict_anti {a b : ℝ} (ha : -1 < a) (hab : a < b) :
    npv8 b < npv8 a := by
  have h0a : 0 < 1 + a := by linarith
  have h0b : 0 < 1 + b := by linarith
  rw [npv8_eq a h0a, npv8_eq b h0b]
  have hlt : (1 + a) ^ ((1460:ℝ)/1461) < (1 + b) ^ ((1460:ℝ)/1461) :=
    Real.rpow_lt_rpow (le_of_lt h0a) (by linarith) (by norm_num)
  have hpa : (0:ℝ) < (1 + a) ^ ((1460:ℝ)/1461) := Real.rpow_pos_of_pos h0a _
  have hdiv := div_lt_div_of_pos_left (by norm_num : (0:ℝ) < 1100) hpa hlt
  linarith

theorem npv8_at_low : (1e-7:ℝ) ≤ npv8 (-0.9999) := by
  have h0 : (0:ℝ) < 1 + (-0.9999) := by norm_num
  rw [npv8_eq _ h0]
  have hble : (1 + (-0.9999:ℝ)) ^ ((1460:ℝ)/1461) ≤ 1 :=
    Real.rpow_le_one (by norm_num) (by norm_num) (by norm_num)
  have hbpos : (0:ℝ) < (1 + (-0.9999:ℝ)) ^ ((1460:ℝ)/1461) :=
    Real.rpow_pos_of_pos (by norm_num) _
  have : (1100:ℝ) / 1 ≤ 1100 / (1 + (-0.9999:ℝ)) ^ ((1460:ℝ)/1461) :=
    div_le_div_of_nonneg_left (by norm_num) hbpos hble
  norm_num at this
  linarith

theorem npv8_at_01 : 0 < npv8 0.1 := by
  have h0 : (0:ℝ) < 1 + 0.1 := by norm_num
  rw [npv8_eq _ h0]
  have hlt : (1 + (0.1:ℝ)) ^ ((1460:ℝ)/1461) < 1 + 0.1 := by
    have h1 : (1 + (0.1:ℝ)) ^ ((1460:ℝ)/1461) < (1 + 0.1) ^ ((1:ℝ)) :=
      Real.rpow_lt_rpow_of_exponent_lt (by norm_num) (by norm_num)
    rwa [Real.rpow_one] at h1
  have hpos : (0:ℝ) < (1 + (0.1:ℝ)) ^ ((1460:ℝ)/1461) :=
    Real.rpow_pos_of_pos h0 _
  have hdiv := div_lt_div_of_pos_left (by norm_num : (0:ℝ) < 1100) hpos hlt
  have : (1100:ℝ) / (1 + 0.1) = 1000 := by norm_num
  linarith


theorem npv8_at_q1 : (1e-7:ℝ) ≤ npv8 0.100071 := by
  have h0 : (0:ℝ) < 1 + 0.100071 := by norm_num
  rw [npv8_eq _ h0]
  have hx : (1 + (0.100071:ℝ)) ^ ((1460:ℝ)/1461) ≤ 11000000000/10000000001 := by
    rw [pow_bridge_le (by norm_num) (by norm_num)]
    norm_num
  have hpos : (0:ℝ) < (1 + (0.100071:ℝ)) ^ ((1460:ℝ)/1461) :=
    Real.rpow_pos_of_pos h0 _
  have hdiv : (1100:ℝ) / (11000000000/10000000001) ≤
      1100 / (1 + (0.100071:ℝ)) ^ ((1460:ℝ)/1461) :=
    div_le_div_of_nonneg_left (by norm_num) hpos hx
  have he : (1100:ℝ) / (11000000000/10000000001) = 1000 + 1e-7 := by norm_num
  linarith

theorem npv8_at_q2 : npv8 0.100073 ≤ -1e-7 := by
  have h0 : (0:ℝ) < 1 + 0.100073 := by norm_num
  rw [npv8_eq _ h0]
  have hx : (11000000000:ℝ)/9999999999 ≤ (1 + (0.100073:ℝ)) ^ ((1460:ℝ)/1461) := by
    rw [pow_bridge_ge (by norm_num) (by norm_num)]
    norm_num
  have hpos9 : (0:ℝ) < (11000000000:ℝ)/9999999999 := by norm_num
  have hdiv : (1100:ℝ) / (1 + (0.100073:ℝ)) ^ ((1460:ℝ)/1461) ≤
      1100 / ((11000000000:ℝ)/9999999999) :=
    div_le_div_of_nonneg_left (by norm_num) hpos9 hx
  have he : (1100:ℝ) / ((11000000000:ℝ)/9999999999) = 1000 - 1e-7 := by norm_num
  linarith

theorem npv8_at_02 : npv8 0.2 ≤ -1e-7 := by
  have h0 : (0:ℝ) < 1 + 0.2 := by norm_num
  rw [npv8_eq _ h0]
  have hx : (11000000000:ℝ)/9999999999 ≤ (1 + (0.2:ℝ)) ^ ((1460:ℝ)/1461) := by
    rw [pow_bridge_ge (by norm_num) (by norm_num)]
    norm_num
  have hpos9 : (0:ℝ) < (11000000000:ℝ)/9999999999 := by norm_num
  have hdiv : (1100:ℝ) / (1 + (0.2:ℝ)) ^ ((1460:ℝ)/1461) ≤
      1100 / ((11000000000:ℝ)/9999999999) :=
    div_le_div_of_nonneg_left (by norm_num) hpos9 hx
  have he : (1100:ℝ) / ((11000000000:ℝ)/9999999999) = 1000 - 1e-7 := by norm_num
  linarith


theorem doubling_loop_succ (tf : List (ℝ × ℝ)) (npvl high nh : ℝ) (fuel : ℕ) :
    doubling_loop tf npvl high nh (fuel + 1) =
      if 0 < npvl * nh ∧ high < 1000000 then
        doubling_loop tf npvl (high * 2) (npv_at tf (high * 2)) fuel
      else (high, nh) := rfl

theorem doubling8 :
    doubling_loop tf8 (npv8 (-0.9999)) 0.1 (npv8 0.1) 60 =
      ((0.1:ℝ) * 2, npv_at tf8 (0.1 * 2)) := by
  have hl : (0:ℝ) < npv8 (-0.9999) := lt_of_lt_of_le (by norm_num) npv8_at_low
  have h02 : npv_at tf8 ((0.1:ℝ) * 2) = npv8 0.2 := by
    rw [npv8_def, show ((0.1:ℝ) * 2) = 0.2 from by norm_num]
  rw [show (60:ℕ) = 59 + 1 from rfl, doubling_loop_succ,
    if_pos ⟨mul_pos hl npv8_at_01, by norm_num⟩,
    show (59:ℕ) = 58 + 1 from rfl, doubling_loop_succ, if_neg]
  rw [h02]
  intro hc
  have h2 := hc.1
  have hneg : npv8 0.2 < 0 := lt_of_le_of_lt npv8_at_02 (by norm_num)
  nlinarith [hneg, hl]

theorem xirr8_eq_bisect :
    xirr_from_cashflows cashflows8 =
      bisect_loop tf8 200 (-0.9999) (0.1 * 2) (npv8 (-0.9999)) (npv8 0.2) := by
  have hl : (0:ℝ) < npv8 (-0.9999) := lt_of_lt_of_le (by norm_num) npv8_at_low
  have hneg : npv8 0.2 < 0 := lt_of_le_of_lt npv8_at_02 (by norm_num)
  have h02 : npv_at tf8 ((0.1:ℝ) * 2) = npv8 0.2 := by
    rw [npv8_def, show ((0.1:ℝ) * 2) = 0.2 from by norm_num]
  simp only [xirr_from_cashflows]
  rw [if_neg (by norm_num [cashflows8]),
    if_neg (not_not_intro ⟨((365:ℤ), (1100:ℝ)), by norm_num [cashflows8],
      by norm_num⟩),
    if_neg (not_not_intro ⟨((0:ℤ), (-1000:ℝ)), by norm_num [cashflows8],
      by norm_num⟩)]
  rw [show xirr_timed_flows cashflows8 = tf8 from rfl]
  rw [show npv_at tf8 (-0.9999) = npv8 (-0.9999) from rfl,
    show npv_at tf8 0.1 = npv8 0.1 from rfl, doubling8]
  rw [if_pos ⟨by norm_num, by norm_num⟩]
  rw [if_neg (by
    rw [h02]
    intro hc
    nlinarith [hl, hneg])]
  rw [h02]


theorem bisect_loop_succ (tf : List (ℝ × ℝ)) (fuel : ℕ) (low high nl nh : ℝ) :
    bisect_loop tf (fuel + 1) low high nl nh =
      if 0 < 1 + (low + high) / 2 then
        if |npv_at tf ((low + high) / 2)| < 1e-7 then some ((low + high) / 2)
        else if nl * npv_at tf ((low + high) / 2) < 0 then
          bisect_loop tf fuel low ((low + high) / 2) nl
            (npv_at tf ((low + high) / 2))
        else bisect_loop tf fuel ((low + high) / 2) high
          (npv_at tf ((low + high) / 2)) nh
      else none := rfl

theorem bisect8 : ∀ (fuel : ℕ) (low high : ℝ), -0.9999 ≤ low → low < high →
    (1e-7:ℝ) ≤ npv8 low → npv8 high ≤ -1e-7 →
    ∃ r, bisect_loop tf8 fuel low high (npv8 low) (npv8 high) = some r ∧
      0.100071 - (high - low) / 2 ^ fuel < r ∧
      r < 0.100073 + (high - low) / 2 ^ fuel := by
  intro fuel
  induction fuel with
  | zero =>
    intro low high hlw hlh hnl hnh
    have hq1h : (0.100071:ℝ) < high := by
      by_contra hc
      push_neg at hc
      rcases eq_or_lt_of_le hc with he | hlt
      · rw [he] at hnh
        linarith [npv8_at_q1]
      · have := npv8_strict_anti (by linarith : (-1:ℝ) < high) hlt
        linarith [npv8_at_q1]
    have hlq2 : low < (0.100073:ℝ) := by
      by_contra hc
      push_neg at hc
      rcases eq_or_lt_of_le hc with he | hlt
      · rw [← he] at hnl
        linarith [npv8_at_q2]
      · have := npv8_strict_anti (by norm_num : (-1:ℝ) < 0.100073) hlt
        linarith [npv8_at_q2]
    refine ⟨(low + high) / 2, rfl, ?_, ?_⟩
    · rw [pow_zero, div_one]
      linarith
    · rw [pow_zero, div_one]
      linarith
  | succ fuel ih =>
    intro low high hlw hlh hnl hnh
    have hm1 : (-0.9999:ℝ) ≤ (low + high) / 2 := by linarith
    have h0m : (0:ℝ) < 1 + (low + high) / 2 := by linarith
    have h2f : ((2:ℝ)) ^ fuel ≠ 0 := by positivity
    have hw1 : ((low + high) / 2 - low) / 2 ^ fuel =
        (high - low) / 2 ^ (fuel + 1) := by
      rw [pow_succ]
      field_simp
      ring
    have hw2 : (high - (low + high) / 2) / 2 ^ fuel =
        (high - low) / 2 ^ (fuel + 1) := by
      rw [pow_succ]
      field_simp
      ring
    have hlpos : (0:ℝ) < npv8 low := by linarith
    rw [bisect_loop_succ, if_pos h0m, npv8_def]
    by_cases habs : |npv8 ((low + high) / 2)| < 1e-7
    · rw [if_pos habs]
      rw [abs_lt] at habs
      have hposw : (0:ℝ) < (high - low) / 2 ^ (fuel + 1) := by
        apply div_pos (by linarith)
        positivity
      have hq1m : (0.100071:ℝ) < (low + high) / 2 := by
        by_contra hc
        push_neg at hc
        rcases eq_or_lt_of_le hc with he | hlt
        · rw [he] at habs
          linarith [npv8_at_q1]
        · have := npv8_strict_anti
            (by linarith : (-1:ℝ) < (low + high) / 2) hlt
          linarith [npv8_at_q1]
      have hmq2 : (low + high) / 2 < (0.100073:ℝ) := by
        by_contra hc
        push_neg at hc
        rcases eq_or_lt_of_le hc with he | hlt
        · rw [← he] at habs
          linarith [npv8_at_q2]
        · have := npv8_strict_anti (by norm_num : (-1:ℝ) < 0.100073) hlt
          linarith [npv8_at_q2]
      exact ⟨(low + high) / 2, rfl, by linarith, by linarith⟩
    · rw [if_neg habs]
      rw [abs_lt, not_and_or, not_lt, not_lt] at habs
      by_cases hsign : npv8 low * npv8 ((low + high) / 2) < 0
      · rw [if_pos hsign]
        have hmidneg : npv8 ((low + high) / 2) ≤ -1e-7 := by
          rcases habs with h | h
          · exact h
          · exfalso
            have hmp : (0:ℝ) < npv8 ((low + high) / 2) := by linarith
            have := mul_pos hlpos hmp
            linarith
        obtain ⟨r, heq, hb1, hb2⟩ := ih low ((low + high) / 2) hlw
          (by linarith) hnl hmidneg
        rw [hw1] at hb1 hb2
        exact ⟨r, heq, hb1, hb2⟩
      · rw [if_neg hsign]
        have hmidpos : (1e-7:ℝ) ≤ npv8 ((low + high) / 2) := by
          rcases habs with h | h
          · exfalso
            push_neg at hsign
            have hmn : npv8 ((low + high) / 2) < 0 := by linarith
            have := mul_neg_of_pos_of_neg hlpos hmn
            linarith
          · exact h
        obtain ⟨r, heq, hb1, hb2⟩ := ih ((low + high) / 2) high hm1
          (by linarith) hmidpos hnh
        rw [hw2] at hb1 hb2
        exact ⟨r, heq, hb1, hb2⟩

theorem xirr8_located :
    ∃ r, xirr_from_cashflows cashflows8 = some r ∧
      (0.1000709:ℝ) < r ∧ r < 0.1000731 := by
  have hnh : npv8 ((0.1:ℝ) * 2) ≤ -1e-7 := by
    rw [show ((0.1:ℝ) * 2) = 0.2 from by norm_num]
    exact npv8_at_02
  obtain ⟨r, heq, h1, h2⟩ := bisect8 200 (-0.9999) (0.1 * 2) (by norm_num)
    (by norm_num) npv8_at_low hnh
  have hδ : ((0.1:ℝ) * 2 - -0.9999) / 2 ^ (200:ℕ) < 1e-7 := by
    rw [div_lt_iff (by positivity)]
    norm_num
  have heq2 : xirr_from_cashflows cashflows8 = some r := by
    rw [xirr8_eq_bisect]
    have : npv8 ((0.1:ℝ) * 2) = npv8 0.2 := by norm_num
    rw [← this]
    exact heq
  exact ⟨r, heq2, by linarith, by linarith⟩


/-! ## Claim-level theorems -/

/-- C1: FIFO ordering of lot matching: every emitted match row of a sell
draws from the lot queue strictly in queue order (ascending (buy date, id)
after the sort), its quantity is min(remaining sell shares, that lot's
remaining shares), a further row exists only once the current lot is
exhausted down to the tolerance; and the spec's concrete example (buys of
100 @ A and 50 @ B, sell of 120) produces exactly the two rows 100-from-A
and 20-from-B. -/
theorem c1_fifo_ordering :
    (∀ (ctx : SellCtx) (lots : List BuyLot) (stm : ℚ) (i : Nat),
      i < (sell_loop ctx stm lots).1.length →
      ((sell_loop ctx stm lots).1.map MatchRow.buy_transaction_id).getD i 0 =
          (lotIds lots).getD i 0 ∧
        ((sell_loop ctx stm lots).1.map MatchRow.shares).getD i 0 =
          min (stm - matchShares ((sell_loop ctx stm lots).1.take i))
            ((lots.map BuyLot.shares_remaining).getD i 0) ∧
        (i + 1 < (sell_loop ctx stm lots).1.length →
          (lots.map BuyLot.shares_remaining).getD i 0 -
            ((sell_loop ctx stm lots).1.map MatchRow.shares).getD i 0 ≤
              FLOAT_TOLERANCE)) ∧
    create_transaction_matches [buyA, buyB, sellC] [] false = ([mAC, mBC], 0) := by
  constructor
  · exact sell_loop_fifo
  · norm_num +decide [create_transaction_matches, ctmRows, keysInOrder, ctmStep,
      matchGroup, groupBuys, groupSells, groupRows, sortByDateId, insertByKey,
      txKey, keyLt, buildLots, buildLot, processSell, sell_loop, sellAllocated,
      buyAllocated, coalesce_amount, absFloat, FLOAT_TOLERANCE,
      buyA, buyB, sellC, mAC, mBC,
      List.filter_cons, List.filter_nil, List.filterMap_cons, List.filterMap_nil,
      List.foldl_cons, List.foldl_nil, List.foldr_cons, List.foldr_nil,
      List.any_cons, List.any_nil]

/-- Witness for C1: the index facts instantiated at the spec's example
(the 120-share sell against the 100/50 lot queue), index 0. -/
theorem c1_fifo_ordering_witness :
    ((sell_loop (sellCtxOf 1 1 [] sellC) 120 (buildLots [] [buyA, buyB])).1.map
        MatchRow.buy_transaction_id).getD 0 0 =
      (lotIds (buildLots [] [buyA, buyB])).getD 0 0 ∧
    ((sell_loop (sellCtxOf 1 1 [] sellC) 120 (buildLots [] [buyA, buyB])).1.map
        MatchRow.shares).getD 0 0 =
      min (120 - matchShares
          ((sell_loop (sellCtxOf 1 1 [] sellC) 120 (buildLots [] [buyA, buyB])).1.take 0))
        (((buildLots [] [buyA, buyB]).map BuyLot.shares_remaining).getD 0 0) ∧
    (0 + 1 < (sell_loop (sellCtxOf 1 1 [] sellC) 120 (buildLots [] [buyA, buyB])).1.length →
      ((buildLots [] [buyA, buyB]).map BuyLot.shares_remaining).getD 0 0 -
        ((sell_loop (sellCtxOf 1 1 [] sellC) 120 (buildLots [] [buyA, buyB])).1.map
          MatchRow.shares).getD 0 0 ≤ FLOAT_TOLERANCE) :=
  c1_fifo_ordering.1 (sellCtxOf 1 1 [] sellC) (buildLots [] [buyA, buyB]) 120 0
    (by norm_num +decide [sell_loop, buildLots, buildLot, buyA, buyB, sellC,
      buyAllocated, coalesce_amount, absFloat, FLOAT_TOLERANCE,
      List.filterMap_cons, List.filterMap_nil])

/-- C2: idempotence of the lot matcher: a second incremental run over the
same transactions inserts no match row and reports zero matches created. -/
theorem c2_matcher_idempotent (transactions : List Transaction)
    (existing : List MatchRow)
    (hid : (transactions.map Transaction.id).Nodup) :
    (create_transaction_matches transactions
        (existing ++ (create_transaction_matches transactions existing false).1)
        false).1 = [] ∧
    (create_transaction_matches transactions
        (existing ++ (create_transaction_matches transactions existing false).1)
        false).1.length = 0 := by
  have h := create_transaction_matches_idem transactions existing hid
  exact ⟨h, by rw [h]; rfl⟩

/-- Witness for C2 at the three-transaction FIFO example. -/
theorem c2_matcher_idempotent_witness :
    (create_transaction_matches [buyA, buyB, sellC]
        ([] ++ (create_transaction_matches [buyA, buyB, sellC] [] false).1)
        false).1 = [] ∧
    (create_transaction_matches [buyA, buyB, sellC]
        ([] ++ (create_transaction_matches [buyA, buyB, sellC] [] false).1)
        false).1.length = 0 :=
  c2_matcher_idempotent [buyA, buyB, sellC] [] (by decide)

/-- C3: match share-cap invariant: starting from a table satisfying the
per-buy and per-sell caps, one incremental run keeps the summed match
shares of every buy and of every sell below that transaction's total
share count. -/
theorem c3_match_share_cap (transactions : List Transaction)
    (existing : List MatchRow)
    (hid : (transactions.map Transaction.id).Nodup)
    (hbuy : ∀ t ∈ transactions, t.transaction_type = "buy" →
      buyAllocated existing t.id ≤ absFloat t.shares)
    (hsell : ∀ t ∈ transactions, t.transaction_type = "sell" →
      sellAllocated existing t.id ≤ absFloat t.shares) :
    (∀ t ∈ transactions, t.transaction_type = "buy" →
      buyAllocated
        (existing ++ (create_transaction_matches transactions existing false).1)
        t.id ≤ absFloat t.shares) ∧
    (∀ t ∈ transactions, t.transaction_type = "sell" →
      sellAllocated
        (existing ++ (create_transaction_matches transactions existing false).1)
        t.id ≤ absFloat t.shares) :=
  create_transaction_matches_cap transactions existing hid hbuy hsell

/-- Witness for C3: the cap at the 100-share buy of the FIFO example. -/
theorem c3_match_share_cap_witness :
    buyAllocated
      ([] ++ (create_transaction_matches [buyA, buyB, sellC] [] false).1)
      buyA.id ≤ absFloat buyA.shares :=
  (c3_match_share_cap [buyA, buyB, sellC] [] (by decide)
      (by intro t ht htype
          fin_cases ht <;> norm_num [buyAllocated, absFloat, buyA, buyB, sellC])
      (by intro t ht htype
          fin_cases ht <;> norm_num [sellAllocated, absFloat, buyA, buyB, sellC])).1
    buyA (by simp) rfl

/-- C4 (amended): for a dividend the allocator processes successfully, the
allocated amounts sum exactly to the recorded amount (a) whenever the
rounding-remainder branch fires, (b) whenever no share count is declared
and every eligible segment exceeds the tolerance, and (c) whenever the
walk exhausts the distributable pool exactly (shares_left = 0, as when a
declared share count is fully consumed by the eligible segments); the
original unconditional conservation claim is refuted by
c4_dividend_conservation_cex. -/
theorem c4_dividend_conservation (d : Transaction) (segs : List HoldingSegment)
    (dd : Nat) (pd : Option Nat) (bs : List AllocBucket)
    (hsome : allocate_for_dividend d segs dd pd = some bs) :
    (FLOAT_TOLERANCE < (alloc_walk_result d segs dd pd).shares_left ∧
        (alloc_walk_result d segs dd pd).distributed < coalesce_amount d false →
      bucketAmountSum bs = coalesce_amount d false) ∧
    (absFloat d.shares ≤ FLOAT_TOLERANCE ∧
        (∀ seg ∈ eligible_segments segs dd pd, FLOAT_TOLERANCE < seg.shares) →
      bucketAmountSum bs = coalesce_amount d false) ∧
    ((alloc_walk_result d segs dd pd).shares_left = 0 →
      bucketAmountSum bs = coalesce_amount d false) := by
  have hres : alloc_walk_result d segs dd pd = alloc_walk (absFloat d.shares)
      (coalesce_amount d false /
        dividend_total_shares d (eligible_segments segs dd pd))
      { shares_left := dividend_total_shares d (eligible_segments segs dd pd)
        distributed := 0, buckets := [] }
      (eligible_segments segs dd pd) := rfl
  have hnil : (([] : List AllocBucket).map AllocBucket.buy_id).Nodup := by simp
  have hW := (alloc_walk_sum (absFloat d.shares)
    (coalesce_amount d false /
      dividend_total_shares d (eligible_segments segs dd pd))
    (eligible_segments segs dd pd)
    { shares_left := dividend_total_shares d (eligible_segments segs dd pd)
      distributed := 0, buckets := [] } hnil).2
  rw [← hres] at hW
  have hsumW : bucketAmountSum (alloc_walk_result d segs dd pd).buckets =
      (alloc_walk_result d segs dd pd).distributed := by
    simp only [bucketAmountSum, List.map_nil, List.sum_nil] at hW ⊢
    linarith
  unfold allocate_for_dividend at hsome
  dsimp only at hsome
  split_ifs at hsome with h1 h2 h3 h4 h5
  · have hbs : bs = add_remainder_to_last
        (coalesce_amount d false - (alloc_walk_result d segs dd pd).distributed)
        (alloc_walk_result d segs dd pd).buckets :=
      (Option.some_injective _ hsome).symm
    have hne : (alloc_walk_result d segs dd pd).buckets ≠ [] := by
      intro hc
      exact h4 (by rw [hc]; rfl)
    have hsum : bucketAmountSum bs = coalesce_amount d false := by
      rw [hbs, add_remainder_sum _ _ hne, hsumW]
      ring
    exact ⟨fun _ => hsum, fun _ => hsum, fun _ => hsum⟩
  · have hbs : bs = (alloc_walk_result d segs dd pd).buckets :=
      (Option.some_injective _ hsome).symm
    refine ⟨fun hcond => absurd hcond h5, ?_, ?_⟩
    · rintro ⟨hds, hbig⟩
      have hT : dividend_total_shares d (eligible_segments segs dd pd) =
          ((eligible_segments segs dd pd).map HoldingSegment.shares).sum := by
        unfold dividend_total_shares
        rw [if_neg (not_lt.mpr hds)]
      have hfull := (alloc_walk_full (absFloat d.shares)
        (coalesce_amount d false /
          dividend_total_shares d (eligible_segments segs dd pd)) hds
        (eligible_segments segs dd pd)
        { shares_left := dividend_total_shares d (eligible_segments segs dd pd)
          distributed := 0, buckets := [] } hbig).1
      rw [← hres] at hfull
      have hTpos : (0:ℚ) <
          dividend_total_shares d (eligible_segments segs dd pd) := by
        have htol : (0:ℚ) < FLOAT_TOLERANCE := by norm_num [FLOAT_TOLERANCE]
        linarith [not_le.mp h3]
      have hcancel : ((eligible_segments segs dd pd).map
          HoldingSegment.shares).sum *
          (coalesce_amount d false /
            dividend_total_shares d (eligible_segments segs dd pd)) =
          coalesce_amount d false := by
        rw [← hT]
        field_simp
      rw [hbs, hsumW, hfull]
      dsimp only
      rw [hcancel]
      ring
    · intro hz
      have hinv := alloc_walk_invariant (absFloat d.shares)
        (coalesce_amount d false /
          dividend_total_shares d (eligible_segments segs dd pd))
        (eligible_segments segs dd pd)
        { shares_left := dividend_total_shares d (eligible_segments segs dd pd)
          distributed := 0, buckets := [] }
      rw [← hres, hz] at hinv
      dsimp only at hinv
      have hTpos : (0:ℚ) <
          dividend_total_shares d (eligible_segments segs dd pd) := by
        have htol : (0:ℚ) < FLOAT_TOLERANCE := by norm_num [FLOAT_TOLERANCE]
        linarith [not_le.mp h3]
      have hcancel : dividend_total_shares d (eligible_segments segs dd pd) *
          (coalesce_amount d false /
            dividend_total_shares d (eligible_segments segs dd pd)) =
          coalesce_amount d false := by
        field_simp
      rw [hbs, hsumW]
      linarith [hinv, hcancel]


/-- Counterexample for C4: a dividend of amount -50 declaring 200 shares
against a single eligible 100-share segment is processed successfully but
allocates only -25; the allocations miss the recorded amount by 25, far
beyond the 1e-9 tolerance. -/
theorem c4_dividend_conservation_cex :
    allocate_for_dividend d4 [seg4] 10 none = some c4buckets ∧
    coalesce_amount d4 false = -50 ∧
    bucketAmountSum c4buckets = -25 ∧
    FLOAT_TOLERANCE < |bucketAmountSum c4buckets - coalesce_amount d4 false| := by
  refine ⟨?_, ?_, ?_, ?_⟩
  · norm_num +decide [allocate_for_dividend, alloc_walk_result,
      dividend_total_shares, eligible_segments, alloc_walk, addToBucket,
      add_remainder_to_last, coalesce_amount, absFloat, FLOAT_TOLERANCE,
      dateMin, d4, seg4, c4buckets,
      List.filter_cons, List.filter_nil, List.any_cons, List.any_nil]
  · norm_num +decide [coalesce_amount, d4]
  · norm_num [bucketAmountSum, c4buckets]
  · norm_num +decide [bucketAmountSum, c4buckets, coalesce_amount, d4,
      FLOAT_TOLERANCE]

/-- Witness for C4: conservation at a no-declared-shares dividend of 50
over one 100-share segment, and at a declared 160-share dividend of 80
exactly exhausted by two eligible segments of 100 and 60 shares. -/
theorem c4_dividend_conservation_witness :
    bucketAmountSum c4wbuckets = coalesce_amount d4w false ∧
    bucketAmountSum c4xbuckets = coalesce_amount d4x false :=
  ⟨(c4_dividend_conservation d4w [seg4w] 10 none c4wbuckets
      (by norm_num +decide [allocate_for_dividend, alloc_walk_result,
        dividend_total_shares, eligible_segments, alloc_walk, addToBucket,
        add_remainder_to_last, coalesce_amount, absFloat, FLOAT_TOLERANCE,
        dateMin, d4w, seg4w, c4wbuckets,
        List.filter_cons, List.filter_nil, List.any_cons, List.any_nil])).2.1
    ⟨by norm_num [absFloat, d4w, FLOAT_TOLERANCE], by
      intro seg hseg
      have hs : seg = seg4w := by
        simpa [eligible_segments, seg4w, dateMin, List.filter_cons,
          List.filter_nil] using hseg
      rw [hs]
      norm_num [seg4w, FLOAT_TOLERANCE]⟩,
   (c4_dividend_conservation d4x [csegA, csegB] 10 none c4xbuckets
      (by norm_num +decide [allocate_for_dividend, alloc_walk_result,
        dividend_total_shares, eligible_segments, alloc_walk, addToBucket,
        add_remainder_to_last, coalesce_amount, absFloat, FLOAT_TOLERANCE,
        dateMin, d4x, csegA, csegB, c4xbuckets,
        List.filter_cons, List.filter_nil, List.any_cons, List.any_nil])).2.2
    (by norm_num +decide [alloc_walk_result, dividend_total_shares,
      eligible_segments, alloc_walk, addToBucket, coalesce_amount, absFloat,
      FLOAT_TOLERANCE, dateMin, d4x, csegA, csegB,
      List.filter_cons, List.filter_nil, List.any_cons, List.any_nil])⟩

/-- C5 (amended): eligibility of a segment is an OR, not the claimed AND:
a segment is eligible iff its buy date strictly precedes the dividend
date and its sell date is none, or at least the dividend date, or
strictly after the previous-dividend cutoff; and every allocation bucket
of a processed dividend references an eligible segment.  The claimed
exclusion of segments sold before the dividend date is refuted by
c5_eligibility_window_cex. -/
theorem c5_eligibility_window :
    (∀ (segs : List HoldingSegment) (dd : Nat) (pd : Option Nat)
        (seg : HoldingSegment),
      seg ∈ eligible_segments segs dd pd ↔
        seg ∈ segs ∧ seg.buy_date < dd ∧
          (seg.sell_date = none ∨ ∃ sd, seg.sell_date = some sd ∧
            (dd ≤ sd ∨ pd.getD dateMin < sd))) ∧
    (∀ (d : Transaction) (segs : List HoldingSegment) (dd : Nat)
        (pd : Option Nat) (bs : List AllocBucket),
      allocate_for_dividend d segs dd pd = some bs →
      ∀ b ∈ bs, ∃ seg ∈ eligible_segments segs dd pd,
        b.buy_id = seg.buy_transaction_id) :=
  ⟨fun _ _ _ _ => mem_eligible_segments,
    fun _ _ _ _ _ h => allocate_buckets_eligible h⟩

/-- Counterexample for C5: a segment sold at date 50, strictly before the
dividend date 100, still receives the full dividend (its sell date is
after the previous-dividend cutoff, and the code's condition is an OR). -/
theorem c5_eligibility_window_cex :
    seg5.sell_date = some 50 ∧ (50 : Nat) < 100 ∧
    allocate_for_dividend d5 [seg5] 100 none = some c5buckets ∧
    c5buckets.map AllocBucket.buy_id = [seg5.buy_transaction_id] ∧
    FLOAT_TOLERANCE < bucketAmountSum c5buckets := by
  refine ⟨rfl, by norm_num, ?_, by norm_num [c5buckets, seg5], ?_⟩
  · norm_num +decide [allocate_for_dividend, alloc_walk_result,
      dividend_total_shares, eligible_segments, alloc_walk, addToBucket,
      add_remainder_to_last, coalesce_amount, absFloat, FLOAT_TOLERANCE,
      dateMin, d5, seg5, c5buckets,
      List.filter_cons, List.filter_nil, List.any_cons, List.any_nil]
  · norm_num [bucketAmountSum, c5buckets, FLOAT_TOLERANCE]

/-- Witness for C5: the characterization decides seg5 eligible at dividend
date 100, and the allocation of d5 references only eligible segments. -/
theorem c5_eligibility_window_witness :
    seg5 ∈ eligible_segments [seg5] 100 none ∧
    (∀ b ∈ c5buckets, ∃ seg ∈ eligible_segments [seg5] 100 none,
      b.buy_id = seg.buy_transaction_id) :=
  ⟨(c5_eligibility_window.1 [seg5] 100 none seg5).mpr
      ⟨by simp, by norm_num [seg5],
        Or.inr ⟨50, rfl, Or.inr (by norm_num [dateMin])⟩⟩,
    c5_eligibility_window.2 d5 [seg5] 100 none c5buckets
      (by norm_num +decide [allocate_for_dividend, alloc_walk_result,
        dividend_total_shares, eligible_segments, alloc_walk, addToBucket,
        add_remainder_to_last, coalesce_amount, absFloat, FLOAT_TOLERANCE,
        dateMin, d5, seg5, c5buckets,
        List.filter_cons, List.filter_nil, List.any_cons, List.any_nil])⟩

/-- C6 (amended): the two dividend splitters share only their pro-rata
arithmetic: with no declared-share cap, positive segment shares above the
tolerance and distinct buy ids, both walks assign share_i times
(amount / total) to the i-th position, and both remainder rules add the
residual to the last bucket the same way.  Full equivalence (identical
eligibility windows and thresholds) is refuted by
c6_split_equivalence_cex. -/
theorem c6_split_arithmetic (amount : ℚ) (segs : List HoldingSegment)
    (hpos : ∀ seg ∈ segs, FLOAT_TOLERANCE < seg.shares)
    (hnd : (segs.map HoldingSegment.buy_transaction_id).Nodup) :
    ((alloc_walk 0 (amount / (segs.map HoldingSegment.shares).sum)
        { shares_left := (segs.map HoldingSegment.shares).sum
          distributed := 0, buckets := [] } segs).buckets.map
          AllocBucket.amount =
      (agg_walk (amount / (segs.map HoldingSegment.shares).sum)
        ((segs.map HoldingSegment.shares).sum)
        (segs.map HoldingSegment.shares)).1) ∧
    (∀ (r : ℚ) (bs : List AllocBucket),
      (add_remainder_to_last r bs).map AllocBucket.amount =
        add_last_rat r (bs.map AllocBucket.amount)) := by
  have htol : (0:ℚ) < FLOAT_TOLERANCE := by norm_num [FLOAT_TOLERANCE]
  constructor
  · rw [alloc_walk_exact _ segs _ hpos hnd (by simp)]
    rw [agg_walk_exact _ (segs.map HoldingSegment.shares) _
      (by
        intro sh hsh
        obtain ⟨seg, hseg, he⟩ := List.mem_map.mp hsh
        have := hpos seg hseg
        rw [← he]
        linarith) rfl]
    simp [List.map_map, Function.comp]
  · exact fun r bs => add_remainder_map_amount bs r

/-- Counterexample for C6: a position bought exactly on the dividend date
is eligible for the aggregator (inclusive buy_date <= div_date) but not
for the allocator (strict buy_date < dividend_date), so the aggregator
splits the dividend while the allocator reports an error for the same
holding. -/
theorem c6_split_equivalence_cex :
    agg_dividend_split 100 0 [pos6] 10 = some [(100:ℚ)] ∧
    allocate_for_dividend d6 [seg6] 10 none = none ∧
    agg_dividend_amount d6 = 100 ∧
    pos6.buy_date = seg6.buy_date ∧ pos6.sell_date = 20 ∧
    seg6.sell_date = some 20 ∧ pos6.shares = seg6.shares := by
  refine ⟨?_, ?_, ?_, rfl, rfl, rfl, rfl⟩
  · norm_num +decide [agg_dividend_split, agg_eligible, agg_walk,
      add_last_rat, pos6, List.filter_cons, List.filter_nil]
  · norm_num +decide [allocate_for_dividend, alloc_walk_result,
      dividend_total_shares, eligible_segments, alloc_walk, addToBucket,
      add_remainder_to_last, coalesce_amount, absFloat, FLOAT_TOLERANCE,
      dateMin, d6, seg6,
      List.filter_cons, List.filter_nil, List.any_cons, List.any_nil]
  · norm_num +decide [agg_dividend_amount, coalesce_amount, d6]

/-- Witness for C6: the shared pro-rata arithmetic at two concrete open
segments of 100 and 60 shares and a dividend amount of 80. -/
theorem c6_split_arithmetic_witness :
    ((alloc_walk 0 (80 / ([csegA, csegB].map HoldingSegment.shares).sum)
        { shares_left := ([csegA, csegB].map HoldingSegment.shares).sum
          distributed := 0, buckets := [] } [csegA, csegB]).buckets.map
          AllocBucket.amount =
      (agg_walk (80 / ([csegA, csegB].map HoldingSegment.shares).sum)
        (([csegA, csegB].map HoldingSegment.shares).sum)
        ([csegA, csegB].map HoldingSegment.shares)).1) ∧
    (∀ (r : ℚ) (bs : List AllocBucket),
      (add_remainder_to_last r bs).map AllocBucket.amount =
        add_last_rat r (bs.map AllocBucket.amount)) :=
  c6_split_arithmetic 80 [csegA, csegB]
    (by
      intro seg hseg
      fin_cases hseg <;> norm_num [csegA, csegB, FLOAT_TOLERANCE])
    (by decide)

/-- C7 (amended): on a non-positive final value the CAGR is
-100 * (1 - (|final| / initial) ^ (1 / years)) — with the omitted
(1 / years) exponent; the boundary case (1000, 0, 2) gives exactly -100,
and a non-positive initial value or year count gives 0.  The claim's
exponent-free formula is refuted by c7_cagr_formula_cex. -/
theorem c7_cagr_formula :
    (∀ i f y : ℝ, 0 < i → 0 < y → f ≤ 0 →
      calculate_cagr i f y = -100 * (1 - (|f| / i) ^ (1 / y))) ∧
    calculate_cagr 1000 0 2 = -100 ∧
    (∀ i f y : ℝ, i ≤ 0 ∨ y ≤ 0 → calculate_cagr i f y = 0) := by
  refine ⟨?_, ?_, ?_⟩
  · intro i f y hi hy hf
    unfold calculate_cagr
    rw [if_neg (by push_neg; exact ⟨hi, hy⟩), if_pos hf]
  · unfold calculate_cagr
    rw [if_neg (by norm_num), if_pos le_rfl,
      show |(0:ℝ)| / 1000 = 0 by norm_num,
      Real.zero_rpow (by norm_num)]
    norm_num
  · intro i f y h
    unfold calculate_cagr
    rw [if_pos h]

/-- Counterexample for C7: at (initial, final, years) = (1000, -250, 2)
the code yields -100 * (1 - (1/4) ^ (1/2)) = -50, while the claim's
formula -100 * (1 - |final| / initial) gives -75. -/
theorem c7_cagr_formula_cex :
    calculate_cagr 1000 (-250) 2 = -50 ∧
    -100 * (1 - |(-250:ℝ)| / 1000) = -75 ∧
    calculate_cagr 1000 (-250) 2 ≠ -100 * (1 - |(-250:ℝ)| / 1000) := by
  have hpow : (|(-250:ℝ)| / 1000) ^ ((1:ℝ) / 2) = 1 / 2 := by
    rw [show |(-250:ℝ)| / 1000 = ((1:ℝ)/2) ^ (2:ℕ) by norm_num,
      show (1:ℝ)/2 = ((2:ℕ):ℝ)⁻¹ by norm_num]
    exact Real.pow_rpow_inv_natCast (by norm_num) (by norm_num)
  have h1 : calculate_cagr 1000 (-250) 2 = -50 := by
    unfold calculate_cagr
    rw [if_neg (by norm_num), if_pos (by norm_num), hpow]
    norm_num
  refine ⟨h1, by norm_num, ?_⟩
  rw [h1]
  norm_num

/-- Witness for C7: the non-positive-final formula instantiated at
(1000, -250, 1). -/
theorem c7_cagr_formula_witness :
    calculate_cagr 1000 (-250) 1 =
      -100 * (1 - (|(-250:ℝ)| / 1000) ^ (1 / (1:ℝ))) :=
  c7_cagr_formula.1 1000 (-250) 1 (by norm_num) (by norm_num) (by norm_num)

/-- C9: XIRR undefined-result handling: fewer than two flows, no positive
flow, or no negative flow give none; and when the doubling search finds
no sign change and the fixed scan table is exhausted without a bracket,
the result is none as well (the total Lean model cannot raise). -/
theorem c9_xirr_undefined :
    (∀ cf : List (ℤ × ℝ), cf.length < 2 → xirr_from_cashflows cf = none) ∧
    (∀ cf : List (ℤ × ℝ), (∀ c ∈ cf, c.2 ≤ 0) →
      xirr_from_cashflows cf = none) ∧
    (∀ cf : List (ℤ × ℝ), (∀ c ∈ cf, 0 ≤ c.2) →
      xirr_from_cashflows cf = none) ∧
    (∀ cf : List (ℤ × ℝ), ¬ cf.length < 2 →
      (∃ c ∈ cf, 0 < c.2) → (∃ c ∈ cf, c.2 < 0) →
      0 < npv_at (xirr_timed_flows cf) (-0.9999) *
        (doubling_loop (xirr_timed_flows cf)
          (npv_at (xirr_timed_flows cf) (-0.9999)) 0.1
          (npv_at (xirr_timed_flows cf) 0.1) 60).2 →
      0 < 1 + (doubling_loop (xirr_timed_flows cf)
          (npv_at (xirr_timed_flows cf) (-0.9999)) 0.1
          (npv_at (xirr_timed_flows cf) 0.1) 60).1 →
      scan_loop (xirr_timed_flows cf) none BRACKET_SCAN_POINTS = none →
      xirr_from_cashflows cf = none) := by
  refine ⟨?_, ?_, ?_, ?_⟩
  · intro cf h
    simp only [xirr_from_cashflows]
    rw [if_pos h]
  · intro cf h
    by_cases hlen : cf.length < 2
    · simp only [xirr_from_cashflows]
      rw [if_pos hlen]
    · have hno : ¬ ∃ c ∈ cf, 0 < c.2 := by
        rintro ⟨c, hc, hpos⟩
        linarith [h c hc]
      simp only [xirr_from_cashflows]
      rw [if_neg hlen, if_pos hno]
  · intro cf h
    by_cases hlen : cf.length < 2
    · simp only [xirr_from_cashflows]
      rw [if_pos hlen]
    · by_cases hpos : ∃ c ∈ cf, 0 < c.2
      · have hno : ¬ ∃ c ∈ cf, c.2 < 0 := by
          rintro ⟨c, hc, hneg⟩
          linarith [h c hc]
        simp only [xirr_from_cashflows]
        rw [if_neg hlen, if_neg (not_not_intro hpos), if_pos hno]
      · simp only [xirr_from_cashflows]
        rw [if_neg hlen, if_pos hpos]
  · intro cf hlen hpos hneg hprod hhigh hscan
    simp only [xirr_from_cashflows]
    rw [if_neg hlen, if_neg (not_not_intro hpos), if_neg (not_not_intro hneg),
      if_pos ⟨by norm_num, hhigh⟩, if_pos hprod, hscan]

/-- Witness for C9: a single flow and an all-negative pair both give
none. -/
theorem c9_xirr_undefined_witness :
    xirr_from_cashflows [((0:ℤ), (5:ℝ))] = none ∧
    xirr_from_cashflows [((0:ℤ), (-3:ℝ)), ((10:ℤ), (-4:ℝ))] = none :=
  ⟨c9_xirr_undefined.1 _ (by norm_num),
    c9_xirr_undefined.2.1 _ (by
      intro c hc
      fin_cases hc <;> norm_num)⟩

/-- C10: dividend-amount coalescing precedence: with both total_value and
net_amount present, prefer_net=false (used by the allocator and the
aggregator) reads total_value while prefer_net=true (buy/sell costs and
proceeds) reads net_amount; and neither the allocator's outcome nor the
aggregator's dividend amount depends on net_amount at all. -/
theorem c10_amount_precedence :
    (∀ (row : Transaction) (v w : ℚ), row.total_value = some v →
      row.net_amount = some w →
      coalesce_amount row false = v ∧ coalesce_amount row true = w) ∧
    (∀ (d : Transaction) (segs : List HoldingSegment) (dd : Nat)
        (pd : Option Nat) (w : Option ℚ),
      allocate_for_dividend { d with net_amount := w } segs dd pd =
        allocate_for_dividend d segs dd pd) ∧
    (∀ (row : Transaction) (w : Option ℚ),
      agg_dividend_amount { row with net_amount := w } =
        agg_dividend_amount row) := by
  refine ⟨?_, ?_, ?_⟩
  · intro row v w htv hnet
    constructor
    · simp [coalesce_amount, htv]
    · simp [coalesce_amount, hnet]
  · intro d segs dd pd w
    have hco : coalesce_amount { d with net_amount := w } false =
        coalesce_amount d false := by
      simp [coalesce_amount]
    simp only [allocate_for_dividend, alloc_walk_result,
      dividend_total_shares, hco]
  · intro row w
    simp [agg_dividend_amount, coalesce_amount]

/-- Witness for C10: row10 carries total_value 77 and net_amount 88; the
two coalescing modes read 77 and 88 respectively. -/
theorem c10_amount_precedence_witness :
    coalesce_amount row10 false = 77 ∧ coalesce_amount row10 true = 88 :=
  c10_amount_precedence.1 row10 77 88 rfl rfl


/-- C8 (amended): for the cash flows (-1000 at day 0, +1100 at day 365)
the XIRR engine returns a rate within 2e-6 of 0.100072 (the exact root of
the 365/365.25-year NPV is 1.1 ^ (1461/1460) - 1, about 0.1000718); the
claimed 1e-6 accuracy around 0.10 is refuted by c8_xirr_roundtrip_cex. -/
theorem c8_xirr_roundtrip :
    ∃ r, xirr_from_cashflows cashflows8 = some r ∧
      |r - 0.100072| < (2e-6:ℝ) := by
  obtain ⟨r, heq, h1, h2⟩ := xirr8_located
  exact ⟨r, heq, abs_lt.mpr ⟨by linarith, by linarith⟩⟩

/-- Counterexample for C8: the returned rate differs from 0.10 by more
than 1e-6 (the engine converges near the true root 0.1000718..., because
one year of 365 days is 365/365.25 of the code's year unit, not 1). -/
theorem c8_xirr_roundtrip_cex :
    ∃ r, xirr_from_cashflows cashflows8 = some r ∧
      (1e-6:ℝ) < |r - 0.10| := by
  obtain ⟨r, heq, h1, h2⟩ := xirr8_located
  refine ⟨r, heq, ?_⟩
  rw [abs_of_pos (by linarith)]
  linarith

end Portfolio
